import Mathlib

/-!
Verification of the client-side entity synchronization core of the
fvtt-module-streamdeck repository: the deep-merge and diff utilities
(`mergeObject`, `expandObject`, `setProperty`, `diffObject`, `isObjectEmpty`
from `src/unnamed/part_002`), the `Entity` update/create/delete
workflows and permission accessors (`src/components/TinyClient/entities/entity.js`),
and the `EntityCollection` store (`src/components/TinyClient/entities/entityCollection.js`).

JavaScript plain-data values are embedded as the inductive type `Val`;
JavaScript objects are association lists of string keys in insertion order
(a real JS object never holds the same key twice, which the theorems carry
as a well-formedness hypothesis where it matters).
-/

set_option maxHeartbeats 1600000

namespace Streamdeck

/-- A JavaScript plain-data value: `undefined`, `null`, booleans, numbers
(modelled as integers; none of the verified code does fractional arithmetic),
strings, arrays, and plain objects (ordered association lists). -/
inductive Val where
  | undef : Val
  | null : Val
  | bool : Bool → Val
  | num : Int → Val
  | str : String → Val
  | arr : List Val → Val
  | obj : List (String × Val) → Val
  deriving Inhabited

/-- Fields of a JS object: key/value pairs in insertion order. -/
abbrev Fields := List (String × Val)

mutual
/-- Structural equality of plain-data values (deep value equality). -/
def Val.beq : Val → Val → Bool
  | .undef, .undef => true
  | .null, .null => true
  | .bool a, .bool b => a == b
  | .num a, .num b => a == b
  | .str a, .str b => a == b
  | .arr a, .arr b => Val.beqL a b
  | .obj a, .obj b => Val.beqF a b
  | _, _ => false

/-- Structural equality of value lists. -/
def Val.beqL : List Val → List Val → Bool
  | [], [] => true
  | a :: as, b :: bs => Val.beq a b && Val.beqL as bs
  | _, _ => false

/-- Structural equality of field lists. -/
def Val.beqF : List (String × Val) → List (String × Val) → Bool
  | [], [] => true
  | (k1, v1) :: as, (k2, v2) :: bs => k1 == k2 && Val.beq v1 v2 && Val.beqF as bs
  | _, _ => false
end


/-- JS strict equality `===` restricted to primitive values, which is the
only place the verified code applies `===` to data (objects and arrays are
routed to dedicated branches first). On primitives it is value equality. -/
def scalarEq (a b : Val) : Bool :=
  match a, b with
  | .undef, .undef => true
  | .null, .null => true
  | .bool x, .bool y => x == y
  | .num x, .num y => x == y
  | .str x, .str y => x == y
  | _, _ => false

/-- `typeof`-style classification used by the source `getType` in
`src/unnamed/part_002`: plain objects are "Object", arrays "Array". -/
def getType : Val → String
  | .undef => "undefined"
  | .null => "null"
  | .bool _ => "boolean"
  | .num _ => "number"
  | .str _ => "string"
  | .arr _ => "Array"
  | .obj _ => "Object"

/-- JavaScript truthiness for the values of `Val`. -/
def truthy : Val → Bool
  | .undef => false
  | .null => false
  | .bool b => b
  | .num n => n != 0
  | .str s => s ≠ ""
  | .arr _ => true
  | .obj _ => true

/-- `original[k]`: property access, `undefined` when the key is absent. -/
def lookupVal : Fields → String → Val
  | [], _ => .undef
  | (k', v) :: rest, k => if k' == k then v else lookupVal rest k

/-- `original.hasOwnProperty(k)`. -/
def hasKey : Fields → String → Bool
  | [], _ => false
  | (k', _) :: rest, k => k' == k || hasKey rest k

/-- `original[k] = v`: replace the first binding of `k` in place, or append. -/
def setKey : Fields → String → Val → Fields
  | [], k, v => [(k, v)]
  | (k', v') :: rest, k, v =>
    if k' == k then (k', v) :: rest else (k', v') :: setKey rest k v

/-- `delete original[k]`. -/
def delKey : Fields → String → Fields
  | [], _ => []
  | (k', v') :: rest, k =>
    if k' == k then rest else (k', v') :: delKey rest k

/-- `Object.keys`. -/
def keysOf (fs : Fields) : List String := fs.map Prod.fst


/-! ## Dot-path helpers: `setProperty`, `expandObject` (src/unnamed/part_002) -/

/-- The `/\./.test(k)` check of `mergeObject` (a key contains a dot). -/
def hasDot (s : String) : Bool := s.data.contains '.'

/-- The `k.startsWith("-=")` check of the merge loop. -/
def isDeleteKey (s : String) : Bool :=
  match s.data with
  | '-' :: '=' :: _ => true
  | _ => false

/-- `key.split(".")` for the dot separator, as used by `setProperty`. -/
def splitDotsAux : List Char → List Char → List String
  | [], acc => [String.mk acc.reverse]
  | c :: cs, acc =>
    if c == '.' then String.mk acc.reverse :: splitDotsAux cs []
    else splitDotsAux cs (c :: acc)

/-- `key.split(".")`. -/
def splitDots (s : String) : List String := splitDotsAux s.data []

/-- The navigation-and-assign core of the source `setProperty`: walk the
`.`-separated path segments, creating `{}` intermediates for absent keys, and
assign at the final segment. A non-object intermediate value makes the JS
assignment throw (strict-mode module code), embedded as an error. -/
def setPath : Fields → List String → Val → Except String Fields
  | _, [], _ => .error "setProperty: empty key"
  | fs, [k], v => .ok (setKey fs k v)
  | fs, p :: rest, v =>
    match (if hasKey fs p then lookupVal fs p else Val.obj []) with
    | .obj inner =>
      match setPath inner rest v with
      | .error e => .error e
      | .ok inner2 => .ok (setKey fs p (.obj inner2))
    | _ => .error "setProperty: intermediate value is not an object"

/-- `setProperty(object, key, value)` from src/unnamed/part_002 (the mutated
object; the source's changed-flag return value is unused by the verified
callers and omitted). -/
def setProperty (object : Fields) (key : String) (value : Val) : Except String Fields :=
  setPath object (splitDots key) value

mutual
/-- The value step of `expandObject` (src/unnamed/part_002): a plain-object
value is expanded one level deeper (`v = expandObject(v, _d + 1)`, whose
entry guard `_d > 10` raises the depth error); every other value passes
through. -/
def expandVal : Val → Nat → Except String Val
  | .obj inner, d =>
    if d + 1 > 10 then .error "Maximum depth exceeded"
    else
      match expandGo inner (d + 1) [] with
      | .error e => .error e
      | .ok fs => .ok (.obj fs)
  | v, _ => .ok v

/-- Entry loop of `expandObject`: each entry value is expanded with
`expandVal`, then written into the fresh accumulator with `setProperty`. -/
def expandGo : Fields → Nat → Fields → Except String Fields
  | [], _, acc => .ok acc
  | (k, v) :: rest, d, acc =>
    match expandVal v d with
    | .error e => .error e
    | .ok v2 =>
      match setProperty acc k v2 with
      | .error e => .error e
      | .ok acc2 => expandGo rest d acc2
end

/-- `expandObject(obj, _d)` from src/unnamed/part_002: convert dot-notation
keys into nested objects; errors past recursion depth 10. -/
def expandObjectD (fs : Fields) (d : Nat) : Except String Fields :=
  if d > 10 then .error "Maximum depth exceeded" else expandGo fs d []

/-! ## `mergeObject` (src/unnamed/part_002, lines 32-131) -/

/-- The option bag of `mergeObject`. The source's `inplace` option changes
only aliasing, not the value computed, so the pure embedding has no analogue
of it (and `duplicate` is the identity on the plain data the claims range
over). -/
structure MergeOpts where
  insertKeys : Bool
  insertValues : Bool
  overwrite : Bool
  enforceTypes : Bool

/-- The source's default options `{insertKeys:true, insertValues:true,
overwrite:true, enforceTypes:false}`. -/
def dfltOpts : MergeOpts := ⟨true, true, true, false⟩

/-- The defaults with `overwrite:false`. -/
def noOverwriteOpts : MergeOpts := ⟨true, true, false, false⟩

/-- The defaults with `insertKeys:false`. -/
def noInsertKeysOpts : MergeOpts := ⟨false, true, true, false⟩

/-- The key after the `-=` delete-prefix handling: `k = k.slice(2)` when the
entry key carries the prefix. -/
def stripKey (k0 : String) : String := if isDeleteKey k0 then k0.drop 2 else k0

/-- `v === null`. -/
def isNullV : Val → Bool
  | .null => true
  | _ => false

/-- `x === undefined`. -/
def isUndefV : Val → Bool
  | .undef => true
  | _ => false

/-- The ensure-inner-objects condition of the merge loop:
`!has && tv === "Object"`. -/
def ensureB (original : Fields) (k : String) (v : Val) : Bool :=
  !hasKey original k && (getType v == "Object")

/-- The existing value `x` after the ensure-inner-objects step: a fresh `{}`
when it fired, otherwise `original[k]`. -/
def xVal (original : Fields) (k : String) (v : Val) : Val :=
  if ensureB original k v then .obj [] else lookupVal original k

/-- `original` after the ensure-inner-objects step. -/
def base1 (original : Fields) (k : String) (v : Val) : Fields :=
  if ensureB original k v then setKey original k (.obj []) else original

/-- One entry of the `mergeObject` loop body, with the result `pairRes` of
the recursive case 1.1 merge (`some` when `tv === "Object" && tx ===
"Object"`) supplied by the caller. Mirrors, in order: the `-=` delete-key
handling, the ensure-inner-object step, case 1.1 recursive merge, 1.2
delete, 1.3 overwrite (with the `enforceTypes` mismatch error; `tx` is a
nonempty string for every value, so the source's `tx &&` conjunct is always
truthy), 1.4 fill `undefined` holes, and case 2 insertion of missing keys
gated by `insertKeys` at depth 1 and `insertValues` below. -/
def mergeEntryWith (opts : MergeOpts) (depth : Nat) (original : Fields)
    (k0 : String) (v : Val) (pairRes : Option (Except String Fields)) :
    Except String Fields :=
  let toDelete := isDeleteKey k0 && isNullV v
  let k := stripKey k0
  let original1 := base1 original k v
  let x := xVal original k v
  if hasKey original k || ensureB original k v then
    match pairRes with
    | some (.error e) => .error e
    | some (.ok mf) => .ok (setKey original1 k (.obj mf))
    | none =>
      if toDelete then .ok (delKey original1 k)
      else if opts.overwrite then
        if getType v != getType x && opts.enforceTypes then
          .error "Mismatched data types encountered during object merge."
        else .ok (setKey original1 k v)
      else if isUndefV x && opts.insertValues then .ok (setKey original1 k v)
      else .ok original1
  else
    if !toDelete && ((depth == 1 && opts.insertKeys) || (depth > 1 && opts.insertValues)) then
      .ok (setKey original1 k v)
    else .ok original1

mutual
/-- Case 1.1 of the merge loop: when the existing value `x` and the incoming
value `v` are both plain objects (`tv === "Object" && tx === "Object"`),
merge recursively one depth deeper; `none` signals any other pairing, which
`mergeEntryWith` resolves with the non-recursive cases. -/
def mergeObjPair (opts : MergeOpts) (depth : Nat) : Val → Val → Option (Except String Fields)
  | .obj xf, .obj vf => some (mergeFields opts (depth + 1) xf vf)
  | _, _ => none

/-- The entry loop of `mergeObject` (the `for [k, v] of Object.entries(other)`
body), at computed recursion depth `depth` (`_d + 1` in the source; 1 at the
top-level call): process each entry with `mergeEntryWith`, threading the
updated `original` through; an error aborts the loop as the thrown exception
does. -/
def mergeFields (opts : MergeOpts) : Nat → Fields → Fields → Except String Fields
  | _, original, [] => .ok original
  | depth, original, (k0, v) :: rest =>
    match mergeEntryWith opts depth original k0 v
        (mergeObjPair opts depth (xVal original (stripKey k0) v) v) with
    | .error e => .error e
    | .ok o2 => mergeFields opts depth o2 rest
end

/-- `mergeObject(original, other, options)` from src/unnamed/part_002: the
depth-0 dot-key expansion of both arguments followed by the entry loop at
computed depth 1. -/
def mergeObject (original other : Fields) (opts : MergeOpts) : Except String Fields := do
  let orig1 ←
    if (keysOf original).any hasDot then expandObjectD original 0
    else .ok original
  let other1 ←
    if (keysOf other).any hasDot then expandObjectD other 0
    else .ok other
  mergeFields opts 1 orig1 other1

/-! ## `diffObject`, `isObjectEmpty` (src/unnamed/part_002, lines 212-243) -/

/-- `isObjectEmpty(obj)` on a plain object (the only way the verified code
calls it): zero own keys. -/
def isObjectEmpty (fs : Fields) : Bool := fs.isEmpty

/-- Modelled from the spec: the source's array branch calls
`Array.prototype.equals`, a helper not defined under `src/`; per the spec,
"array values are compared by element-wise equality, not reference", embedded
as pointwise deep value equality of the element lists. -/
def arrEquals (a b : List Val) : Bool := Val.beqL a b

mutual
/-- The inner `_difference(v0, v1)` of `diffObject`: returns (is-different,
difference payload). -/
def jsDifference : Val → Val → Bool × Val
  | v0, v1 =>
    if getType v0 != getType v1 then (true, v1)
    else
      match v0, v1 with
      | .arr a0, .arr a1 => (!arrEquals a0 a1, .arr a1)
      | .obj f0, .obj f1 =>
        if isObjectEmpty f0 != isObjectEmpty f1 then (true, .obj f1)
        else
          let d := diffObject f0 f1
          (!isObjectEmpty d, .obj d)
      | _, _ => (!scalarEq v0 v1, v1)

/-- `diffObject(original, other)`: the subset of keys of `other` whose value
differs from `original`, in key order of `other` (a JS object's keys are
unique, so iterating its entries is iterating `Object.keys`). -/
def diffObject : Fields → Fields → Fields
  | _, [] => []
  | f0, (k, v1) :: rest =>
    let p := jsDifference (lookupVal f0 k) v1
    (if p.1 then [(k, p.2)] else []) ++ diffObject f0 rest
end

/-! ## Permissions (entity.js lines 439-514, compendium.js line 679) -/

/-- The `ENTITY_PERMISSIONS` constant (models/compendium.js lines 679-684). -/
def entityPermissions : Fields :=
  [("NONE", .num 0), ("LIMITED", .num 1), ("OBSERVER", .num 2), ("OWNER", .num 3)]

/-- The `Entity.permission` getter (entity.js lines 439-446): a GM user is
always `OWNER` (3); otherwise the per-user entry of the permission map when
truthy (`userPerm ? userPerm : ...`), else the `default` entry. `perm` is the
entity's `data.permission` map. -/
def permissionGetter (isGM : Bool) (userId : String) (perm : Fields) : Val :=
  if isGM then .num 3
  else
    let userPerm := lookupVal perm userId
    if truthy userPerm then userPerm else lookupVal perm "default"

/-- JavaScript `>=` as it arises inside `hasPerm`: both sides numbers, else
false (comparison with `undefined` is false). -/
def jsGE : Val → Val → Bool
  | .num a, .num b => a ≥ b
  | _, _ => false

/-- `Entity.hasPerm(user, permission, exact)` (entity.js lines 501-514).
`permMap` is `none` when `this.data.permission` is absent. Note the per-user
entry is honoured when `Number.isInteger` holds of it, unlike the truthiness
test of the `permission` getter. -/
def hasPerm (isGM : Bool) (userId : String) (permMap : Option Fields)
    (permission : String) (exact : Bool) : Bool :=
  match permMap with
  | none => isGM
  | some pm =>
    let userLevel := lookupVal pm userId
    let level := match userLevel with
      | .num n => Val.num n
      | _ => lookupVal pm "default"
    let perm := lookupVal entityPermissions permission
    if exact then scalarEq level perm
    else if isGM then true
    else jsGE level perm

/-! ## The static `Entity.update` staging phase (entity.js lines 739-779) -/

/-- First-match lookup in a string-keyed association list (used for the
`Map`/plain-record lookups whose keys are known strings). -/
def assocGet {α : Type} : List (String × α) → String → Option α
  | [], _ => none
  | (k', v) :: rest, k => if k' == k then some v else assocGet rest k

/-- One step of the `data.reduce` staging loop of the static `Entity.update`
(entity.js lines 747-765): reject a falsy `_id`, resolve the live entity from
the collection strictly (`collection.get(d._id, {strict: true})`), and when
`options.diff` is set narrow the item to `diffObject(entity.data,
expandObject(d))` — dropping it from the batch (`none`) when the diff is
empty, else re-tagging it with the entity's id. `store` maps collection keys
to the live entities' current data. -/
def stageUpdateItem (store : List (String × Fields)) (diff : Bool) (d : Fields) :
    Except String (Option Fields) :=
  if !truthy (lookupVal d "_id") then
    .error "You must provide an _id for every Entity in the data Array."
  else
    match (match lookupVal d "_id" with
           | .str s => assocGet store s
           | _ => none) with
    | none => .error "The key does not exist in the Collection"
    | some eData =>
      if diff then
        match expandObjectD d 0 with
        | .error e => .error e
        | .ok ex =>
          let dd := diffObject eData ex
          if isObjectEmpty dd then .ok none
          else .ok (some (setKey dd "_id" (lookupVal eData "_id")))
      else .ok (some d)

/-- Outcome of the pre-dispatch phase of the static `Entity.update`:
whether a socket dispatch happens, and the value the call resolves with when
no dispatch happens (the staged updates otherwise). -/
structure UpdateCall where
  dispatched : Bool
  result : List Fields

/-- The `data.reduce` staging loop of the static `Entity.update`: thread the
staged-updates accumulator through `stageUpdateItem` for every item, skipping
dropped items; a thrown error aborts the loop. -/
def stageAll (store : List (String × Fields)) (diff : Bool) :
    List Fields → List Fields → Except String (List Fields)
  | acc, [] => .ok acc
  | acc, d :: rest =>
    match stageUpdateItem store diff d with
    | .error e => .error e
    | .ok none => stageAll store diff acc rest
    | .ok (some u) => stageAll store diff (acc ++ [u]) rest

/-- The pre-dispatch phase of the static `Entity.update` (entity.js lines
739-779): stage every item of the batch; when the staged list is empty the
call returns `[]` with no `SocketInterface.dispatch`, otherwise the batch
goes out on the socket. -/
def staticUpdate (store : List (String × Fields)) (diff : Bool)
    (data : List Fields) : Except String UpdateCall := do
  let updates ← stageAll store diff [] data
  if updates.isEmpty then .ok ⟨false, []⟩ else .ok ⟨true, updates⟩

/-! ## The `Entity._handleUpdate` apply step (entity.js lines 791-820) -/

/-- The per-record apply step of `Entity._handleUpdate` (entity.js lines
796-806): `mergeObject(entity.data, data)` merges the incoming record into
the live data in place, then `if (data.permission && entity.data.permission)
entity.data.permission = data.permission` re-assigns the permission map in
full. -/
def handleUpdateRecord (entityData record : Fields) : Except String Fields := do
  let merged ← mergeObject entityData record dfltOpts
  if truthy (lookupVal record "permission") && truthy (lookupVal merged "permission") then
    .ok (setKey merged "permission" (lookupVal record "permission"))
  else .ok merged

/-! ## The static `Entity.create` return shape (entity.js lines 635-652) -/

/-- JavaScript `data.length`: an array's length, a string's length, or the
`length` property of a plain object (normally `undefined`). -/
def jsLength : Val → Val
  | .arr xs => .num xs.length
  | .str s => .num s.length
  | .obj fs => lookupVal fs "length"
  | _ => (.undef)

/-- The final return shaping of the static `Entity.create` (entity.js line
651): `data.length === 1 ? entities[0] : entities`, where `data` is the
caller's original payload (a single object or an array of objects) and
`entities` carries the records built from the server response. `entities[0]`
of an empty array is `undefined`. -/
def createReturn (data : Val) (entities : List Val) : Val :=
  if scalarEq (jsLength data) (.num 1) then entities.headD .undef
  else .arr entities

/-! ## Entity construction and `EntityCollection._initialize` -/

/-- The per-type static configuration of an Entity subclass (`Entity.config`):
its canonical entity name, whether the subclass defines a `config` at all
(the base class' `config` getter throws), and the embedded-type-name to
raw-array-field mapping. -/
structure EntityConfig where
  entityName : String
  hasConfig : Bool
  embeddedEntities : List (String × String)

/-- `Entity.prepareData` (entity.js lines 207-213): a present-but-falsy
`name` is defaulted to `"New " + this.entity`; reading `this.entity` throws
for a class without a `config`. -/
def prepareData (cfg : EntityConfig) (d : Fields) : Except String Fields :=
  if hasKey d "name" && !truthy (lookupVal d "name") then
    if cfg.hasConfig then .ok (setKey d "name" (.str ("New " ++ cfg.entityName)))
    else .error "The subclass must define the Entity.config object"
  else .ok d

/-- `Entity.prepareEmbeddedEntities` (entity.js lines 221-229): for each
configured embedded type, build the cached sub-entity array from the raw
array under the configured data field. Reading the `config` of a class
without one throws, as does `.map` on a missing raw array; the constructed
children are carried as their raw data. -/
def prepareEmbedded (cfg : EntityConfig) (d : Fields) :
    Except String (List (String × List Val)) :=
  if !cfg.hasConfig then .error "The subclass must define the Entity.config object"
  else
    cfg.embeddedEntities.foldlM (fun acc nc =>
      match lookupVal d nc.2 with
      | .arr xs => pure (acc ++ [(nc.2, xs)])
      | _ => Except.error "Cannot map a missing embedded collection array")
      ([] : List (String × List Val))

/-- A live Entity instance: its (possibly re-derived) raw data, its cached
embedded sub-entity arrays, and whether the `initialize` pass completed
without a caught error. -/
structure EntityM where
  data : Fields
  embedded : List (String × List Val)
  initOk : Bool

/-- `new Entity(data)` with its `initialize` pass (entity.js lines 115-151 and
187-198): `prepareData()`, `prepareEmbeddedEntities()`, `prepareData()`
again; any exception is caught and logged, leaving a best-effort partially
initialized instance — construction itself never throws. -/
def mkEntity (cfg : EntityConfig) (d : Fields) : EntityM :=
  match prepareData cfg d with
  | .error _ => ⟨d, [], false⟩
  | .ok d1 =>
    match prepareEmbedded cfg d1 with
    | .error _ => ⟨d1, [], false⟩
    | .ok emb =>
      match prepareData cfg d1 with
      | .error _ => ⟨d1, emb, false⟩
      | .ok d2 => ⟨d2, emb, true⟩

/-- `Map.set` (keys compared by SameValueZero; on the plain-data keys used
here that is deep value equality). -/
def mapSet {α : Type} : List (Val × α) → Val → α → List (Val × α)
  | [], k, v => [(k, v)]
  | (k', v') :: rest, k, v =>
    if Val.beq k' k then (k', v) :: rest else (k', v') :: mapSet rest k v

/-- `Map.get`. -/
def mapGet {α : Type} : List (Val × α) → Val → Option α
  | [], _ => none
  | (k', v) :: rest, k => if Val.beq k' k then some v else mapGet rest k

/-- `Map.delete`. -/
def mapDelete {α : Type} : List (Val × α) → Val → List (Val × α)
  | [], _ => []
  | (k', v) :: rest, k =>
    if Val.beq k' k then rest else (k', v) :: mapDelete rest k

/-- `EntityCollection._initialize(data)` (entityCollection.js lines 178-183):
clear the store, then `this.set(d._id, new this.object(d))` for every raw
record of the snapshot. -/
def initCollectionStore (cfg : EntityConfig) (records : List Fields) :
    List (Val × EntityM) :=
  records.foldl (fun store d => mapSet store (lookupVal d "_id") (mkEntity cfg d)) []

/-! ## `Entity._handleDeleteEmbeddedEntity` (entity.js lines 1327-1362) -/

/-- Property access `v[k]` on an arbitrary value: field lookup on plain
objects, `undefined` otherwise. -/
def propOf (v : Val) (k : String) : Val :=
  match v with
  | .obj fs => lookupVal fs k
  | _ => (.undef)

/-- Modelled from the spec: `Array.prototype.partition(rule)` is called by
`Entity._handleDeleteEmbeddedEntity` but is not defined anywhere under
`src/`; following the spec's delete contract ("remove ... exactly the
elements whose _id is in D"), it splits the array into the elements failing
the rule and the elements satisfying it, both in order. -/
def partitionJS {α : Type} (rule : α → Bool) (l : List α) : List α × List α :=
  (l.filter (fun x => !rule x), l.filter rule)

/-- Membership of a child id in the `Set` built from the delete-response ids
(SameValueZero; deep value equality on plain data). -/
def valIn (v : Val) (l : List Val) : Bool := l.any (fun w => Val.beq w v)

/-- Outcome of the embedded-delete response handler: the parent's updated
raw data, the value the handler returns, and the children the per-child
`_onDeleteEmbeddedEntity` hook ran on, in order. -/
structure EmbDeleteOutcome where
  parentData : Fields
  returned : List Val
  hooked : List Val

/-- `Entity._handleDeleteEmbeddedEntity` (entity.js lines 1327-1362): resolve
the parent's raw embedded array via `getEmbeddedCollection`, partition it by
membership of each child's `_id` in the response id set — the rule invokes
the per-child delete hook on each member before returning `false` for it —
assign the surviving array back onto the parent's data under the configured
field, and return the deleted children. -/
def handleDeleteEmbeddedEntity (cfg : EntityConfig) (parentData : Fields)
    (etype : String) (result : List Val) : Except String EmbDeleteOutcome :=
  match assocGet cfg.embeddedEntities etype with
  | none => .error "not a valid Embedded Entity"
  | some field =>
    match lookupVal parentData field with
    | .arr prior =>
      let pr := partitionJS (fun doc => !valIn (propOf doc "_id") result) prior
      .ok ⟨setKey parentData field (.arr pr.2), pr.1, pr.1⟩
    | _ => .error "cannot partition a missing embedded collection array"

/-! ## `EntityCollection.remove` and `findSplice` (entityCollection.js) -/

/-- `Array.prototype.findSplice(find)` (entityCollection.js lines 341-347):
remove and return the first matching element; `null` (here `none`) and an
untouched array when nothing matches. -/
def findSplice {α : Type} (find : α → Bool) : List α → Option α × List α
  | [] => (none, [])
  | x :: xs =>
    if find x then (some x, xs)
    else
      let r := findSplice find xs
      (r.1, x :: r.2)

/-- An `EntityCollection`: the keyed store (a `Map` in insertion order) and
the raw source array it was bootstrapped from. -/
structure CollectionState where
  store : List (Val × EntityM)
  source : List Fields

/-- `EntityCollection.remove(id)` (entityCollection.js lines 293-296):
`this._source.findSplice(e => e._id === id)` then `this.delete(id)`. The
source ids in play are strings, on which `===` is value equality. -/
def collectionRemove (c : CollectionState) (id : Val) : CollectionState :=
  ⟨mapDelete c.store id,
   (findSplice (fun e => scalarEq (lookupVal e "_id") id) c.source).2⟩

/-! ## Specification-side predicates -/

mutual
/-- Well-formedness of a value as JS plain data: object keys are unique at
every level (a JS object cannot hold the same key twice). -/
def Val.wfB : Val → Bool
  | .obj fs => Val.wfFieldsB fs
  | .arr xs => Val.wfListB xs
  | _ => true

/-- Well-formedness of a value list. -/
def Val.wfListB : List Val → Bool
  | [] => true
  | x :: xs => Val.wfB x && Val.wfListB xs

/-- Well-formedness of a field list: no duplicate keys, values well-formed. -/
def Val.wfFieldsB : Fields → Bool
  | [] => true
  | (k, v) :: rest => !hasKey rest k && Val.wfB v && Val.wfFieldsB rest
end

mutual
/-- A value is plain merge data: well-formed, and no object key at any level
contains a dot or carries the `-=` delete prefix (those keys are directives
to `mergeObject`, not data). -/
def Val.plainB : Val → Bool
  | .obj fs => Val.plainFieldsB fs
  | .arr xs => Val.plainListB xs
  | _ => true

/-- Plain-data check for a value list. -/
def Val.plainListB : List Val → Bool
  | [] => true
  | x :: xs => Val.plainB x && Val.plainListB xs

/-- Plain-data check for a field list: undirected unique keys, plain
values. -/
def Val.plainFieldsB : Fields → Bool
  | [] => true
  | (k, v) :: rest =>
    !hasDot k && !isDeleteKey k && !hasKey rest k && Val.plainB v &&
      Val.plainFieldsB rest
end

/-- A sample Actor-like entity configuration (Actor declares the embedded
mapping `{"OwnedItem": "items"}`), used by the concrete witnesses. -/
def cfgActor : EntityConfig := ⟨"Actor", true, [("OwnedItem", "items")]⟩

/-- Top-level key uniqueness of a field list. -/
def nodupKeysB : Fields → Bool
  | [] => true
  | (k, _) :: rest => !hasKey rest k && nodupKeysB rest

mutual
/-- A merged value carries an incoming value: equal to it, except that an
incoming plain object is carried by a plain object covering its fields. -/
def coverValB : Val → Val → Bool
  | rv, .obj bf =>
    match rv with
    | .obj rf => coversB rf bf
    | _ => false
  | rv, bv => Val.beq rv bv

/-- A merge result covers the incoming fields: every key of `b` is present
with `b`'s value, recursively for nested objects. -/
def coversB : Fields → Fields → Bool
  | _, [] => true
  | r, (k, v) :: rest => coverValB (lookupVal r k) v && coversB r rest
end

mutual
/-- An original value survives in a merge result: equal to it, except that an
original plain object may have grown new fields (its own are preserved
recursively). `undefined` originals are not protected. -/
def presValB : Val → Val → Bool
  | .obj af, rv =>
    match rv with
    | .obj rf => presFieldsB af rf
    | _ => false
  | av, rv => Val.beq rv av

/-- Every non-`undefined` original field value survives in the result,
recursively for nested objects. -/
def presFieldsB : Fields → Fields → Bool
  | [], _ => true
  | (k, v) :: rest, r =>
    (if isUndefV v then true else presValB v (lookupVal r k)) && presFieldsB rest r
end

/-! # Verification lemmas and theorems -/

mutual
theorem Val.beq_refl : (v : Val) → Val.beq v v = true
  | .undef => rfl
  | .null => rfl
  | .bool b => by simp [Val.beq]
  | .num n => by simp [Val.beq]
  | .str s => by simp [Val.beq]
  | .arr a => by simp [Val.beq, Val.beqL_refl a]
  | .obj f => by simp [Val.beq, Val.beqF_refl f]

theorem Val.beqL_refl : (l : List Val) → Val.beqL l l = true
  | [] => rfl
  | a :: as => by simp [Val.beqL, Val.beq_refl a, Val.beqL_refl as]

theorem Val.beqF_refl : (l : List (String × Val)) → Val.beqF l l = true
  | [] => rfl
  | (k, v) :: as => by simp [Val.beqF, Val.beq_refl v, Val.beqF_refl as]
end

mutual
theorem Val.eq_of_beq : (a b : Val) → Val.beq a b = true → a = b
  | .undef, .undef, _ => rfl
  | .undef, .null, h => Bool.noConfusion h
  | .undef, .bool _, h => Bool.noConfusion h
  | .undef, .num _, h => Bool.noConfusion h
  | .undef, .str _, h => Bool.noConfusion h
  | .undef, .arr _, h => Bool.noConfusion h
  | .undef, .obj _, h => Bool.noConfusion h
  | .null, .undef, h => Bool.noConfusion h
  | .null, .null, _ => rfl
  | .null, .bool _, h => Bool.noConfusion h
  | .null, .num _, h => Bool.noConfusion h
  | .null, .str _, h => Bool.noConfusion h
  | .null, .arr _, h => Bool.noConfusion h
  | .null, .obj _, h => Bool.noConfusion h
  | .bool _, .undef, h => Bool.noConfusion h
  | .bool _, .null, h => Bool.noConfusion h
  | .bool x, .bool y, h => by
    simp only [Val.beq, beq_iff_eq] at h; rw [h]
  | .bool _, .num _, h => Bool.noConfusion h
  | .bool _, .str _, h => Bool.noConfusion h
  | .bool _, .arr _, h => Bool.noConfusion h
  | .bool _, .obj _, h => Bool.noConfusion h
  | .num _, .undef, h => Bool.noConfusion h
  | .num _, .null, h => Bool.noConfusion h
  | .num _, .bool _, h => Bool.noConfusion h
  | .num x, .num y, h => by
    simp only [Val.beq, beq_iff_eq] at h; rw [h]
  | .num _, .str _, h => Bool.noConfusion h
  | .num _, .arr _, h => Bool.noConfusion h
  | .num _, .obj _, h => Bool.noConfusion h
  | .str _, .undef, h => Bool.noConfusion h
  | .str _, .null, h => Bool.noConfusion h
  | .str _, .bool _, h => Bool.noConfusion h
  | .str _, .num _, h => Bool.noConfusion h
  | .str x, .str y, h => by
    simp only [Val.beq, beq_iff_eq] at h; rw [h]
  | .str _, .arr _, h => Bool.noConfusion h
  | .str _, .obj _, h => Bool.noConfusion h
  | .arr _, .undef, h => Bool.noConfusion h
  | .arr _, .null, h => Bool.noConfusion h
  | .arr _, .bool _, h => Bool.noConfusion h
  | .arr _, .num _, h => Bool.noConfusion h
  | .arr _, .str _, h => Bool.noConfusion h
  | .arr a, .arr b, h => by
    simp only [Val.beq] at h
    rw [Val.eqL_of_beqL a b h]
  | .arr _, .obj _, h => Bool.noConfusion h
  | .obj _, .undef, h => Bool.noConfusion h
  | .obj _, .null, h => Bool.noConfusion h
  | .obj _, .bool _, h => Bool.noConfusion h
  | .obj _, .num _, h => Bool.noConfusion h
  | .obj _, .str _, h => Bool.noConfusion h
  | .obj _, .arr _, h => Bool.noConfusion h
  | .obj a, .obj b, h => by
    simp only [Val.beq] at h
    rw [Val.eqF_of_beqF a b h]

theorem Val.eqL_of_beqL : (a b : List Val) → Val.beqL a b = true → a = b
  | [], [], _ => rfl
  | [], _ :: _, h => Bool.noConfusion h
  | _ :: _, [], h => Bool.noConfusion h
  | x :: xs, y :: ys, h => by
    simp only [Val.beqL, Bool.and_eq_true] at h
    rw [Val.eq_of_beq x y h.1, Val.eqL_of_beqL xs ys h.2]

theorem Val.eqF_of_beqF : (a b : List (String × Val)) → Val.beqF a b = true → a = b
  | [], [], _ => rfl
  | [], _ :: _, h => Bool.noConfusion h
  | _ :: _, [], h => Bool.noConfusion h
  | (k1, v1) :: xs, (k2, v2) :: ys, h => by
    simp only [Val.beqF, Bool.and_eq_true, beq_iff_eq] at h
    rw [h.1.1, Val.eq_of_beq v1 v2 h.1.2, Val.eqF_of_beqF xs ys h.2]
end

theorem Val.beq_iff (a b : Val) : Val.beq a b = true ↔ a = b :=
  ⟨Val.eq_of_beq a b, fun h => h ▸ Val.beq_refl a⟩

theorem lookupVal_setKey_self (fs : Fields) (k : String) (v : Val) :
    lookupVal (setKey fs k v) k = v := by
  induction fs with
  | nil => simp [setKey, lookupVal]
  | cons p rest ih =>
    obtain ⟨k', v'⟩ := p
    by_cases h : k' = k <;> simp [setKey, lookupVal, h, ih]

theorem lookupVal_setKey_other (fs : Fields) (k k' : String) (v : Val)
    (h : k ≠ k') : lookupVal (setKey fs k v) k' = lookupVal fs k' := by
  induction fs with
  | nil => simp [setKey, lookupVal, h]
  | cons p rest ih =>
    obtain ⟨k0, v0⟩ := p
    by_cases h0 : k0 = k
    · subst h0; simp [setKey, lookupVal, h]
    · by_cases h1 : k0 = k'
      · subst h1; simp [setKey, lookupVal, h0]
      · simp [setKey, lookupVal, h0, h1, ih]

theorem hasKey_setKey (fs : Fields) (k k' : String) (v : Val) :
    hasKey (setKey fs k v) k' = (hasKey fs k' || k == k') := by
  induction fs with
  | nil => simp [setKey, hasKey]
  | cons p rest ih =>
    obtain ⟨k0, v0⟩ := p
    by_cases h0 : k0 = k
    · subst h0
      by_cases h1 : k0 = k' <;> simp [setKey, hasKey, h1]
    · by_cases h1 : k0 = k'
      · subst h1; simp [setKey, hasKey, h0]
      · simp [setKey, hasKey, h0, h1, ih, Bool.or_assoc]

theorem lookupVal_of_hasKey_eq_false (fs : Fields) (k : String)
    (h : hasKey fs k = false) : lookupVal fs k = .undef := by
  induction fs with
  | nil => rfl
  | cons p rest ih =>
    obtain ⟨k0, v0⟩ := p
    simp only [hasKey, Bool.or_eq_false_iff, beq_eq_false_iff_ne] at h
    simp [lookupVal, h.1, ih h.2]

theorem setKey_setKey (fs : Fields) (k : String) (v1 v2 : Val) :
    setKey (setKey fs k v1) k v2 = setKey fs k v2 := by
  induction fs with
  | nil => simp [setKey]
  | cons p rest ih =>
    obtain ⟨k0, v0⟩ := p
    by_cases h : k0 = k <;> simp [setKey, h, ih]

theorem lookupVal_delKey_other (fs : Fields) (k k' : String) (h : k ≠ k') :
    lookupVal (delKey fs k) k' = lookupVal fs k' := by
  induction fs with
  | nil => rfl
  | cons p rest ih =>
    obtain ⟨k0, v0⟩ := p
    by_cases h0 : k0 = k
    · subst h0; simp [delKey, lookupVal, h]
    · by_cases h1 : k0 = k'
      · subst h1; simp [delKey, lookupVal, h0]
      · simp [delKey, lookupVal, h0, h1, ih]

theorem hasKey_delKey_other (fs : Fields) (k k' : String) (h : k ≠ k') :
    hasKey (delKey fs k) k' = hasKey fs k' := by
  induction fs with
  | nil => rfl
  | cons p rest ih =>
    obtain ⟨k0, v0⟩ := p
    by_cases h0 : k0 = k
    · subst h0; simp [delKey, hasKey, h]
    · by_cases h1 : k0 = k'
      · subst h1; simp [delKey, hasKey, h0, ih]
      · simp [delKey, hasKey, h0, h1, ih]

theorem mem_of_hasKey (fs : Fields) (k : String) (h : hasKey fs k = true) :
    (k, lookupVal fs k) ∈ fs := by
  induction fs with
  | nil => simp [hasKey] at h
  | cons p rest ih =>
    obtain ⟨k0, v0⟩ := p
    by_cases h0 : k0 = k
    · subst h0; simp [lookupVal]
    · simp only [hasKey, Bool.or_eq_true, beq_iff_eq] at h
      rcases h with h | h

      · exact absurd h h0
      · simp only [lookupVal, beq_iff_eq, if_neg h0]
        exact List.mem_cons_of_mem _ (ih h)

theorem hasKey_of_mem (fs : Fields) (k : String) (v : Val)
    (hm : (k, v) ∈ fs) : hasKey fs k = true := by
  induction fs with
  | nil => simp at hm
  | cons q t iht =>
    rcases List.mem_cons.mp hm with hq | hq
    · subst hq; simp [hasKey]
    · simp [hasKey, iht hq]

theorem lookupVal_eq_of_mem (fs : Fields) (k : String) (v : Val)
    (hnd : nodupKeysB fs = true) (hm : (k, v) ∈ fs) : lookupVal fs k = v := by
  induction fs with
  | nil => simp at hm
  | cons p rest ih =>
    obtain ⟨k0, v0⟩ := p
    simp only [nodupKeysB, Bool.and_eq_true, Bool.not_eq_eq_eq_not, Bool.not_true] at hnd
    rcases List.mem_cons.mp hm with h | h
    · obtain ⟨h1, h2⟩ := Prod.mk.injEq .. ▸ h
      subst h1; subst h2
      simp [lookupVal]
    · have hk : k0 ≠ k := by
        intro he
        subst he
        rw [hasKey_of_mem rest k0 v h] at hnd
        exact Bool.noConfusion hnd.1
      simp only [lookupVal, beq_iff_eq, if_neg hk]
      exact ih hnd.2 h

theorem hasKey_eq_false_of_forall_ne (fs : Fields) (k : String)
    (h : ∀ kv ∈ fs, kv.1 ≠ k) : hasKey fs k = false := by
  induction fs with
  | nil => rfl
  | cons p rest ih =>
    simp only [hasKey, Bool.or_eq_false_iff, beq_eq_false_iff_ne]
    exact ⟨h p (by simp), ih (fun kv hkv => h kv (by simp [hkv]))⟩

/-! ## Merge lemma suite -/

theorem lookupVal_base1_other (original : Fields) (k : String) (v : Val)
    (k' : String) (h : k ≠ k') :
    lookupVal (base1 original k v) k' = lookupVal original k' := by
  unfold base1
  split
  · exact lookupVal_setKey_other original k k' (.obj []) h
  · rfl

theorem hasKey_base1_other (original : Fields) (k : String) (v : Val)
    (k' : String) (h : k ≠ k') :
    hasKey (base1 original k v) k' = hasKey original k' := by
  unfold base1
  split
  · simp [hasKey_setKey, h]
  · rfl

theorem mergeFields_cons (opts : MergeOpts) (depth : Nat) (original : Fields)
    (k0 : String) (v : Val) (rest : Fields) :
    mergeFields opts depth original ((k0, v) :: rest) =
      match mergeEntryWith opts depth original k0 v
          (mergeObjPair opts depth (xVal original (stripKey k0) v) v) with
      | .error e => .error e
      | .ok o2 => mergeFields opts depth o2 rest := rfl

theorem mergeEntryWith_ok (opts : MergeOpts) (depth : Nat) (original : Fields)
    (k0 : String) (v : Val) (pairRes : Option (Except String Fields))
    (hE : opts.enforceTypes = false)
    (hp : pairRes = none ∨ ∃ mf, pairRes = some (Except.ok mf)) :
    ∃ o2, mergeEntryWith opts depth original k0 v pairRes = Except.ok o2 := by
  rcases hp with hp | ⟨mf, hp⟩ <;> subst hp <;>
    simp only [mergeEntryWith, hE, Bool.and_false] <;>
    (repeat' split) <;> first | exact ⟨_, rfl⟩ | simp_all

theorem eq_undef_of_isUndefV (w : Val) (h : isUndefV w = true) : w = .undef := by
  cases w <;> first | rfl | exact Bool.noConfusion h

theorem mergeEntryWith_frame (opts : MergeOpts) (depth : Nat) (original : Fields)
    (k0 : String) (v : Val) (pairRes : Option (Except String Fields)) (o2 : Fields)
    (k' : String) (hk : stripKey k0 ≠ k')
    (h : mergeEntryWith opts depth original k0 v pairRes = Except.ok o2) :
    lookupVal o2 k' = lookupVal original k' ∧ hasKey o2 k' = hasKey original k' := by
  simp only [mergeEntryWith] at h
  repeat' split at h
  all_goals
    first
    | exact Except.noConfusion h
    | (injection h with h; subst h; exact ⟨rfl, rfl⟩)
    | (injection h with h; subst h;
       exact ⟨by rw [lookupVal_setKey_other _ _ _ _ hk,
                lookupVal_base1_other _ _ _ _ hk],
              by rw [hasKey_setKey, hasKey_base1_other _ _ _ _ hk]
                 simp [fun he : stripKey k0 = k' => hk he]⟩)
    | (injection h with h; subst h;
       exact ⟨by rw [lookupVal_delKey_other _ _ _ hk,
                lookupVal_base1_other _ _ _ _ hk],
              by rw [hasKey_delKey_other _ _ _ hk, hasKey_base1_other _ _ _ _ hk]⟩)
    | (injection h with h; subst h;
       exact ⟨lookupVal_base1_other _ _ _ _ hk, hasKey_base1_other _ _ _ _ hk⟩)

theorem mergeEntryWith_pair_ok (opts : MergeOpts) (depth : Nat)
    (original : Fields) (k0 : String) (v : Val) (mf : Fields)
    (hv : getType v = "Object") :
    mergeEntryWith opts depth original k0 v (some (Except.ok mf)) =
      Except.ok (setKey original (stripKey k0) (.obj mf)) := by
  simp only [mergeEntryWith]
  by_cases hh : hasKey original (stripKey k0) = true
  · simp [hh, ensureB, base1]
  · have hh' : hasKey original (stripKey k0) = false := by
      simpa using hh
    have he : ensureB original (stripKey k0) v = true := by
      simp [ensureB, hh', hv]
    simp [he, hh', base1, setKey_setKey]

theorem mergeEntryWith_none_overwrite (opts : MergeOpts) (depth : Nat)
    (original : Fields) (k0 : String) (v : Val)
    (hK : isDeleteKey k0 = false) (hOv : opts.overwrite = true)
    (hE : opts.enforceTypes = false)
    (hCan : ((depth == 1 && opts.insertKeys) || (decide (depth > 1) && opts.insertValues)) = true) :
    mergeEntryWith opts depth original k0 v none =
      Except.ok (setKey original (stripKey k0) v) := by
  simp only [mergeEntryWith, hK, hOv, hE, Bool.false_and, Bool.and_false]
  by_cases hh : hasKey original (stripKey k0) = true
  · simp [hh, ensureB, base1]
  · have hh' : hasKey original (stripKey k0) = false := by simpa using hh
    by_cases hv : getType v = "Object"
    · have he : ensureB original (stripKey k0) v = true := by
        simp [ensureB, hh', hv]
      simp [he, hh', base1, setKey_setKey]
    · have he : ensureB original (stripKey k0) v = false := by
        simp [ensureB, hh', hv]
      simp [he, hh', base1, hCan]

theorem mergeEntryWith_none_noOverwrite (opts : MergeOpts) (depth : Nat)
    (original : Fields) (k0 : String) (v : Val)
    (hK : isDeleteKey k0 = false) (hOv : opts.overwrite = false)
    (hvo : ¬(getType v = "Object" ∧ hasKey original (stripKey k0) = false)) :
    mergeEntryWith opts depth original k0 v none = Except.ok original ∨
      (mergeEntryWith opts depth original k0 v none =
          Except.ok (setKey original (stripKey k0) v) ∧
        (hasKey original (stripKey k0) = false ∨
          lookupVal original (stripKey k0) = .undef)) := by
  simp only [mergeEntryWith, hK, hOv, Bool.false_and]
  by_cases hh : hasKey original (stripKey k0) = true
  · have he : ensureB original (stripKey k0) v = false := by
      simp [ensureB, hh]
    by_cases hu : isUndefV (xVal original (stripKey k0) v) = true
    · by_cases hins : opts.insertValues = true
      · refine Or.inr ⟨by simp [hh, he, base1, hu, hins], Or.inr ?_⟩
        have hx : xVal original (stripKey k0) v = lookupVal original (stripKey k0) := by
          unfold xVal
          rw [he]
          simp
        rw [hx] at hu
        exact eq_undef_of_isUndefV _ hu
      · have hins' : opts.insertValues = false := by simpa using hins
        exact Or.inl (by simp [hh, he, base1, hu, hins'])
    · have hu' : isUndefV (xVal original (stripKey k0) v) = false := by simpa using hu
      exact Or.inl (by simp [hh, he, base1, hu'])
  · have hh' : hasKey original (stripKey k0) = false := by simpa using hh
    have hv : getType v ≠ "Object" := fun hc => hvo ⟨hc, hh'⟩
    have he : ensureB original (stripKey k0) v = false := by
      simp [ensureB, hh', hv]
    by_cases hcan : ((depth == 1 && opts.insertKeys) || (decide (depth > 1) && opts.insertValues)) = true
    · exact Or.inr ⟨by simp [hh', he, base1, hcan], Or.inl hh'⟩
    · have hcan' : ((depth == 1 && opts.insertKeys) || (decide (depth > 1) && opts.insertValues)) = false := by
        simpa using hcan
      exact Or.inl (by simp [hh', he, base1, hcan'])

mutual
theorem mergeOk (opts : MergeOpts) (hE : opts.enforceTypes = false) :
    (b : Fields) → (a : Fields) → (depth : Nat) →
    ∃ r, mergeFields opts depth a b = Except.ok r
  | [], a, _ => ⟨a, rfl⟩
  | (k0, v) :: rest, a, depth => by
    rw [mergeFields_cons]
    obtain hp | ⟨mf, hp⟩ :=
      mergePairShape opts hE v (xVal a (stripKey k0) v) depth <;>
      rw [hp] <;>
      [obtain ⟨o2, ho2⟩ := mergeEntryWith_ok opts depth a k0 v none hE (Or.inl rfl);
       obtain ⟨o2, ho2⟩ := mergeEntryWith_ok opts depth a k0 v
         (some (Except.ok mf)) hE (Or.inr ⟨mf, rfl⟩)] <;>
      rw [ho2] <;>
      exact mergeOk opts hE rest o2 depth

theorem mergePairShape (opts : MergeOpts) (hE : opts.enforceTypes = false) :
    (v : Val) → (x : Val) → (depth : Nat) →
    mergeObjPair opts depth x v = none ∨
      ∃ mf, mergeObjPair opts depth x v = some (Except.ok mf)
  | .obj vf, x, depth => by
    cases x with
    | obj xf =>
      obtain ⟨r, hr⟩ := mergeOk opts hE vf xf (depth + 1)
      exact Or.inr ⟨r, by simp [mergeObjPair, hr]⟩
    | undef => exact Or.inl rfl
    | null => exact Or.inl rfl
    | bool b => exact Or.inl rfl
    | num n => exact Or.inl rfl
    | str s => exact Or.inl rfl
    | arr l => exact Or.inl rfl
  | .undef, x, _ => by cases x <;> exact Or.inl rfl
  | .null, x, _ => by cases x <;> exact Or.inl rfl
  | .bool _, x, _ => by cases x <;> exact Or.inl rfl
  | .num _, x, _ => by cases x <;> exact Or.inl rfl
  | .str _, x, _ => by cases x <;> exact Or.inl rfl
  | .arr _, x, _ => by cases x <;> exact Or.inl rfl
end

theorem ne_key_of_hasKey_eq_false (fs : Fields) (k : String)
    (h : hasKey fs k = false) : ∀ kv ∈ fs, kv.1 ≠ k := by
  intro kv hm he
  obtain ⟨k1, v1⟩ := kv
  subst he
  rw [hasKey_of_mem fs k1 v1 hm] at h
  exact Bool.noConfusion h

theorem plainFieldsB_cons (k : String) (v : Val) (rest : Fields) :
    Val.plainFieldsB ((k, v) :: rest) = true ↔
      hasDot k = false ∧ isDeleteKey k = false ∧ hasKey rest k = false ∧
        Val.plainB v = true ∧ Val.plainFieldsB rest = true := by
  simp [Val.plainFieldsB, and_assoc]

theorem wfFieldsB_cons (k : String) (v : Val) (rest : Fields) :
    Val.wfFieldsB ((k, v) :: rest) = true ↔
      hasKey rest k = false ∧ Val.wfB v = true ∧ Val.wfFieldsB rest = true := by
  simp [Val.wfFieldsB, and_assoc]

theorem nodupKeysB_of_plainFieldsB (fs : Fields)
    (h : Val.plainFieldsB fs = true) : nodupKeysB fs = true := by
  induction fs with
  | nil => rfl
  | cons p rest ih =>
    obtain ⟨k, v⟩ := p
    obtain ⟨_, _, h3, _, h5⟩ := (plainFieldsB_cons k v rest).mp h
    simp [nodupKeysB, h3, ih h5]

theorem nodupKeysB_of_wfFieldsB (fs : Fields)
    (h : Val.wfFieldsB fs = true) : nodupKeysB fs = true := by
  induction fs with
  | nil => rfl
  | cons p rest ih =>
    obtain ⟨k, v⟩ := p
    obtain ⟨h1, _, h3⟩ := (wfFieldsB_cons k v rest).mp h
    simp [nodupKeysB, h1, ih h3]

theorem plainB_of_mem (fs : Fields) (h : Val.plainFieldsB fs = true) :
    ∀ kv ∈ fs, Val.plainB kv.2 = true := by
  induction fs with
  | nil => simp
  | cons p rest ih =>
    obtain ⟨k, v⟩ := p
    obtain ⟨_, _, _, h4, h5⟩ := (plainFieldsB_cons k v rest).mp h
    intro kv hm
    rcases List.mem_cons.mp hm with hq | hq
    · subst hq; exact h4
    · exact ih h5 kv hq

theorem wfB_of_mem (fs : Fields) (h : Val.wfFieldsB fs = true) :
    ∀ kv ∈ fs, Val.wfB kv.2 = true := by
  induction fs with
  | nil => simp
  | cons p rest ih =>
    obtain ⟨k, v⟩ := p
    obtain ⟨_, h2, h3⟩ := (wfFieldsB_cons k v rest).mp h
    intro kv hm
    rcases List.mem_cons.mp hm with hq | hq
    · subst hq; exact h2
    · exact ih h3 kv hq

mutual
theorem Val.wfB_of_plainB : (v : Val) → Val.plainB v = true → Val.wfB v = true
  | .undef, _ => rfl
  | .null, _ => rfl
  | .bool _, _ => rfl
  | .num _, _ => rfl
  | .str _, _ => rfl
  | .arr xs, h => by
    simp only [Val.plainB] at h
    simp only [Val.wfB]
    exact Val.wfListB_of_plainListB xs h
  | .obj fs, h => by
    simp only [Val.plainB] at h
    simp only [Val.wfB]
    exact Val.wfFieldsB_of_plainFieldsB fs h

theorem Val.wfListB_of_plainListB : (l : List Val) → Val.plainListB l = true → Val.wfListB l = true
  | [], _ => rfl
  | x :: xs, h => by
    simp only [Val.plainListB, Bool.and_eq_true] at h
    simp only [Val.wfListB, Bool.and_eq_true]
    exact ⟨Val.wfB_of_plainB x h.1, Val.wfListB_of_plainListB xs h.2⟩

theorem Val.wfFieldsB_of_plainFieldsB : (fs : Fields) → Val.plainFieldsB fs = true → Val.wfFieldsB fs = true
  | [], _ => rfl
  | (k, v) :: rest, h => by
    obtain ⟨_, _, h3, h4, h5⟩ := (plainFieldsB_cons k v rest).mp h
    rw [wfFieldsB_cons]
    exact ⟨h3, Val.wfB_of_plainB v h4, Val.wfFieldsB_of_plainFieldsB rest h5⟩
end

theorem wfB_lookup (fs : Fields) (k : String) (h : Val.wfFieldsB fs = true) :
    Val.wfB (lookupVal fs k) = true := by
  induction fs with
  | nil => rfl
  | cons p rest ih =>
    obtain ⟨k0, v0⟩ := p
    obtain ⟨_, h2, h3⟩ := (wfFieldsB_cons k0 v0 rest).mp h
    by_cases he : k0 = k <;> simp [lookupVal, he, h2, ih h3]

theorem setKey_wf (fs : Fields) (k : String) (v : Val)
    (hfs : Val.wfFieldsB fs = true) (hv : Val.wfB v = true) :
    Val.wfFieldsB (setKey fs k v) = true := by
  induction fs with
  | nil => simp [setKey, wfFieldsB_cons, hv, hasKey, Val.wfFieldsB]
  | cons p rest ih =>
    obtain ⟨k0, v0⟩ := p
    obtain ⟨h1, h2, h3⟩ := (wfFieldsB_cons k0 v0 rest).mp hfs
    by_cases he : k0 = k
    · subst he
      simp [setKey, wfFieldsB_cons, h1, hv, h3]
    · rw [setKey, if_neg (by simpa using he), wfFieldsB_cons]
      refine ⟨?_, h2, ih h3⟩
      rw [hasKey_setKey, h1]
      simp only [Bool.false_or, beq_eq_false_iff_ne, ne_eq]
      exact fun hc => he hc.symm

theorem delKey_wf (fs : Fields) (k : String)
    (hfs : Val.wfFieldsB fs = true) : Val.wfFieldsB (delKey fs k) = true := by
  induction fs with
  | nil => rfl
  | cons p rest ih =>
    obtain ⟨k0, v0⟩ := p
    obtain ⟨h1, h2, h3⟩ := (wfFieldsB_cons k0 v0 rest).mp hfs
    by_cases he : k0 = k
    · subst he; simpa [delKey] using h3
    · rw [delKey, if_neg (by simpa using he), wfFieldsB_cons]
      refine ⟨?_, h2, ih h3⟩
      by_cases hk : hasKey rest k0 = true
      · rw [hk] at h1; exact Bool.noConfusion h1
      · rw [hasKey_delKey_other rest k k0 (fun hc => he hc.symm), h1]

theorem coversB_mem (r b : Fields) (h : coversB r b = true) :
    ∀ kv ∈ b, coverValB (lookupVal r kv.1) kv.2 = true := by
  induction b with
  | nil => simp
  | cons p rest ih =>
    obtain ⟨k, v⟩ := p
    simp only [coversB, Bool.and_eq_true] at h
    intro kv hm
    rcases List.mem_cons.mp hm with hq | hq
    · subst hq; exact h.1
    · exact ih h.2 kv hq

theorem presFieldsB_mem (l r : Fields) (h : presFieldsB l r = true) :
    ∀ kv ∈ l, isUndefV kv.2 = false →
      presValB kv.2 (lookupVal r kv.1) = true := by
  induction l with
  | nil => simp
  | cons p rest ih =>
    obtain ⟨k, v⟩ := p
    simp only [presFieldsB, Bool.and_eq_true] at h
    intro kv hm hu
    rcases List.mem_cons.mp hm with hq | hq
    · subst hq
      have := h.1
      rw [hu] at this
      simpa using this
    · exact ih h.2 kv hq hu

theorem presFieldsB_of_agree (a r : Fields)
    (hag : ∀ kv ∈ a, isUndefV kv.2 = false →
      presValB kv.2 (lookupVal r kv.1) = true) :
    presFieldsB a r = true := by
  induction a with
  | nil => rfl
  | cons p rest ih =>
    obtain ⟨k, v⟩ := p
    simp only [presFieldsB, Bool.and_eq_true]
    constructor
    · by_cases hu : isUndefV v = true
      · simp [hu]
      · have hu' : isUndefV v = false := by simpa using hu
        rw [hu']
        simpa using hag (k, v) (by simp) hu'
    · exact ih (fun kv hm hu => hag kv (by simp [hm]) hu)

theorem noDots_of_plainFieldsB (fs : Fields) (h : Val.plainFieldsB fs = true) :
    (keysOf fs).any hasDot = false := by
  induction fs with
  | nil => rfl
  | cons p rest ih =>
    obtain ⟨k, v⟩ := p
    obtain ⟨h1, _, _, _, h5⟩ := (plainFieldsB_cons k v rest).mp h
    simp [keysOf, h1] at ih ⊢
    exact ih h5

theorem mergeObject_plain_eq (a b : Fields)
    (ha : Val.plainFieldsB a = true) (hb : Val.plainFieldsB b = true)
    (opts : MergeOpts) :
    mergeObject a b opts = mergeFields opts 1 a b := by
  simp only [mergeObject, noDots_of_plainFieldsB a ha, noDots_of_plainFieldsB b hb,
    Bool.false_eq_true, if_false]
  rfl

mutual
theorem coverValB_refl : (v : Val) → Val.plainB v = true → coverValB v v = true
  | .undef, _ => rfl
  | .null, _ => rfl
  | .bool b, _ => by simp [coverValB, Val.beq]
  | .num n, _ => by simp [coverValB, Val.beq]
  | .str s, _ => by simp [coverValB, Val.beq]
  | .arr xs, _ => by simp [coverValB, Val.beq, Val.beqL_refl xs]
  | .obj fs, h => by
    simp only [coverValB]
    exact coversB_sub fs fs (by simpa [Val.plainB] using h)
      (fun kv hm => lookupVal_eq_of_mem fs kv.1 kv.2
        (nodupKeysB_of_plainFieldsB fs (by simpa [Val.plainB] using h)) hm)

theorem coversB_sub : (b : Fields) → (f : Fields) →
    Val.plainFieldsB b = true →
    (∀ kv ∈ b, lookupVal f kv.1 = kv.2) →
    coversB f b = true
  | [], _, _, _ => rfl
  | (k, v) :: rest, f, hb, hag => by
    obtain ⟨_, _, _, h4, h5⟩ := (plainFieldsB_cons k v rest).mp hb
    simp only [coversB, Bool.and_eq_true]
    constructor
    · rw [hag (k, v) (by simp)]
      exact coverValB_refl v h4
    · exact coversB_sub rest f h5 (fun kv hm => hag kv (by simp [hm]))
end

mutual
theorem presValB_refl : (v : Val) → Val.wfB v = true → presValB v v = true
  | .undef, _ => rfl
  | .null, _ => rfl
  | .bool b, _ => by simp [presValB, Val.beq]
  | .num n, _ => by simp [presValB, Val.beq]
  | .str s, _ => by simp [presValB, Val.beq]
  | .arr xs, _ => by simp [presValB, Val.beq, Val.beqL_refl xs]
  | .obj fs, h => by
    simp only [presValB]
    exact presFieldsB_sub fs fs (by simpa [Val.wfB] using h)
      (fun kv hm => lookupVal_eq_of_mem fs kv.1 kv.2
        (nodupKeysB_of_wfFieldsB fs (by simpa [Val.wfB] using h)) hm)

theorem presFieldsB_sub : (a : Fields) → (f : Fields) →
    Val.wfFieldsB a = true →
    (∀ kv ∈ a, lookupVal f kv.1 = kv.2) →
    presFieldsB a f = true
  | [], _, _, _ => rfl
  | (k, v) :: rest, f, ha, hag => by
    obtain ⟨_, h2, h3⟩ := (wfFieldsB_cons k v rest).mp ha
    simp only [presFieldsB, Bool.and_eq_true]
    constructor
    · by_cases hu : isUndefV v = true
      · simp [hu]
      · have hu' : isUndefV v = false := by simpa using hu
        rw [hu']
        simp only [if_false, Bool.false_eq_true]
        rw [hag (k, v) (by simp)]
        exact presValB_refl v h2
    · exact presFieldsB_sub rest f h3 (fun kv hm => hag kv (by simp [hm]))
end

theorem presValB_obj_elim (af : Fields) (w : Val)
    (h : presValB (.obj af) w = true) :
    ∃ rf, w = .obj rf ∧ presFieldsB af rf = true := by
  cases w <;> simp only [presValB] at h
  case obj rf => exact ⟨rf, rfl, h⟩
  all_goals exact Bool.noConfusion h

theorem hasKey_of_lookupVal_ne_undef (fs : Fields) (k : String)
    (h : lookupVal fs k ≠ .undef) : hasKey fs k = true := by
  by_cases hk : hasKey fs k = true
  · exact hk
  · exact absurd (lookupVal_of_hasKey_eq_false fs k (by simpa using hk)) h

theorem presValB_trans_scalar (v : Val) (k : String) (b1 b2 : Fields)
    (hno : ∀ af, v ≠ .obj af) (hnu : v ≠ .undef)
    (h1 : presValB v (lookupVal b1 k) = true)
    (h12 : presFieldsB b1 b2 = true) :
    presValB v (lookupVal b2 k) = true := by
  have hbeq : ∀ w, presValB v w = Val.beq w v := by
    intro w
    cases v with
    | obj af => exact absurd rfl (hno af)
    | undef => rfl
    | null => rfl
    | bool b => rfl
    | num n => rfl
    | str s => rfl
    | arr l => rfl
  rw [hbeq] at h1
  have hv : lookupVal b1 k = v := Val.eq_of_beq _ _ h1
  have hhk : hasKey b1 k = true :=
    hasKey_of_lookupVal_ne_undef b1 k (by rw [hv]; exact hnu)
  have hm : (k, lookupVal b1 k) ∈ b1 := mem_of_hasKey b1 k hhk
  rw [hv] at hm
  have hnu2 : isUndefV v = false := by
    cases v with
    | undef => exact absurd rfl hnu
    | obj af => rfl
    | null => rfl
    | bool b => rfl
    | num n => rfl
    | str s => rfl
    | arr l => rfl
  exact presFieldsB_mem b1 b2 h12 (k, v) hm hnu2

mutual
theorem presValB_trans : (v : Val) → (k : String) → (b1 b2 : Fields) →
    isUndefV v = false →
    presValB v (lookupVal b1 k) = true →
    presFieldsB b1 b2 = true →
    presValB v (lookupVal b2 k) = true
  | .obj af, k, b1, b2, _, h1, h12 => by
    obtain ⟨rf1, hw, haf⟩ := presValB_obj_elim af (lookupVal b1 k) h1
    have hhk : hasKey b1 k = true :=
      hasKey_of_lookupVal_ne_undef b1 k (by rw [hw]; exact fun hc => Val.noConfusion hc)
    have hm : (k, lookupVal b1 k) ∈ b1 := mem_of_hasKey b1 k hhk
    rw [hw] at hm
    have h2 := presFieldsB_mem b1 b2 h12 (k, .obj rf1) hm rfl
    obtain ⟨rf2, hw2, hrf⟩ := presValB_obj_elim rf1 (lookupVal b2 k) h2
    rw [hw2]
    simp only [presValB]
    exact presFieldsB_trans af rf1 rf2 haf hrf
  | .undef, _, _, _, hnu, _, _ => Bool.noConfusion hnu
  | .null, k, b1, b2, _, h1, h12 => presValB_trans_scalar .null k b1 b2 (fun _ hc => Val.noConfusion hc) (fun hc => Val.noConfusion hc) h1 h12
  | .bool b, k, b1, b2, _, h1, h12 => presValB_trans_scalar (.bool b) k b1 b2 (fun _ hc => Val.noConfusion hc) (fun hc => Val.noConfusion hc) h1 h12
  | .num n, k, b1, b2, _, h1, h12 => presValB_trans_scalar (.num n) k b1 b2 (fun _ hc => Val.noConfusion hc) (fun hc => Val.noConfusion hc) h1 h12
  | .str s, k, b1, b2, _, h1, h12 => presValB_trans_scalar (.str s) k b1 b2 (fun _ hc => Val.noConfusion hc) (fun hc => Val.noConfusion hc) h1 h12
  | .arr l, k, b1, b2, _, h1, h12 => presValB_trans_scalar (.arr l) k b1 b2 (fun _ hc => Val.noConfusion hc) (fun hc => Val.noConfusion hc) h1 h12

theorem presFieldsB_trans : (a r1 r2 : Fields) →
    presFieldsB a r1 = true → presFieldsB r1 r2 = true →
    presFieldsB a r2 = true
  | [], _, _, _, _ => rfl
  | (k, v) :: rest, r1, r2, h1, h12 => by
    simp only [presFieldsB, Bool.and_eq_true] at h1 ⊢
    refine ⟨?_, presFieldsB_trans rest r1 r2 h1.2 h12⟩
    by_cases hu : isUndefV v = true
    · simp [hu]
    · have hu' : isUndefV v = false := by simpa using hu
      rw [hu'] at h1 ⊢
      simp only [if_false, Bool.false_eq_true] at h1 ⊢
      exact presValB_trans v k r1 r2 hu' h1.1 h12
end

theorem mergeFields_frame (opts : MergeOpts) :
    (b : Fields) → (a r : Fields) → (depth : Nat) → (k' : String) →
    mergeFields opts depth a b = Except.ok r →
    (∀ kv ∈ b, stripKey kv.1 ≠ k') →
    lookupVal r k' = lookupVal a k' ∧ hasKey r k' = hasKey a k' := by
  intro b
  induction b with
  | nil =>
    intro a r depth k' h _
    injection h with h
    subst h
    exact ⟨rfl, rfl⟩
  | cons p rest ih =>
    obtain ⟨k0, v⟩ := p
    intro a r depth k' h hk
    rw [mergeFields_cons] at h
    cases ho2 : mergeEntryWith opts depth a k0 v
        (mergeObjPair opts depth (xVal a (stripKey k0) v) v) with
    | error e => rw [ho2] at h; exact Except.noConfusion h
    | ok o2 =>
      rw [ho2] at h
      have hf := mergeEntryWith_frame opts depth a k0 v _ o2 k'
        (hk (k0, v) (by simp)) ho2
      have hr := ih o2 r depth k' h (fun kv hkv => hk kv (by simp [hkv]))
      exact ⟨hr.1.trans hf.1, hr.2.trans hf.2⟩

theorem mergeObjPair_some (opts : MergeOpts) (depth : Nat) (x v : Val)
    (res : Except String Fields)
    (h : mergeObjPair opts depth x v = some res) :
    ∃ xf vf, x = .obj xf ∧ v = .obj vf ∧
      mergeFields opts (depth + 1) xf vf = res := by
  cases x <;> cases v <;> (try exact Option.noConfusion h)
  case obj.obj xf vf =>
    simp only [mergeObjPair, Option.some.injEq] at h
    exact ⟨xf, vf, rfl, rfl, h⟩

theorem mergeObjPair_none_of_not_obj (opts : MergeOpts) (depth : Nat)
    (x v : Val) (hv : getType v ≠ "Object") :
    mergeObjPair opts depth x v = none := by
  cases x <;> cases v <;> first | rfl | exact absurd rfl hv

theorem getType_obj_elim (v : Val) (h : getType v = "Object") :
    ∃ vf, v = .obj vf := by
  cases v with
  | obj vf => exact ⟨vf, rfl⟩
  | undef => exact absurd h (by simp [getType])
  | null => exact absurd h (by simp [getType])
  | bool b => exact absurd h (by simp [getType])
  | num n => exact absurd h (by simp [getType])
  | str s => exact absurd h (by simp [getType])
  | arr l => exact absurd h (by simp [getType])

theorem stripKey_eq_self (k : String) (h : isDeleteKey k = false) :
    stripKey k = k := by
  simp [stripKey, h]

theorem plainKey_of_mem (fs : Fields) (h : Val.plainFieldsB fs = true) :
    ∀ kv ∈ fs, hasDot kv.1 = false ∧ isDeleteKey kv.1 = false := by
  induction fs with
  | nil => simp
  | cons p rest ih =>
    obtain ⟨k, v⟩ := p
    obtain ⟨h1, h2, _, _, h5⟩ := (plainFieldsB_cons k v rest).mp h
    intro kv hm
    rcases List.mem_cons.mp hm with hq | hq
    · subst hq; exact ⟨h1, h2⟩
    · exact ih h5 kv hq

theorem xVal_wf (a : Fields) (k : String) (v : Val)
    (ha : Val.wfFieldsB a = true) : Val.wfB (xVal a k v) = true := by
  unfold xVal
  split
  · rfl
  · exact wfB_lookup a k ha

theorem mergeFields_cons_ok (opts : MergeOpts) (depth : Nat)
    (original : Fields) (k0 : String) (v : Val) (rest : Fields) (o2 : Fields)
    (h : mergeEntryWith opts depth original k0 v
        (mergeObjPair opts depth (xVal original (stripKey k0) v) v) =
      Except.ok o2) :
    mergeFields opts depth original ((k0, v) :: rest) =
      mergeFields opts depth o2 rest := by
  rw [mergeFields_cons, h]

theorem presFieldsB_refl (a : Fields) (ha : Val.wfFieldsB a = true) :
    presFieldsB a a = true :=
  presFieldsB_sub a a ha
    (fun kv hm => lookupVal_eq_of_mem a kv.1 kv.2 (nodupKeysB_of_wfFieldsB a ha) hm)

theorem mergeEntryWith_wf (opts : MergeOpts) (depth : Nat) (a : Fields)
    (k0 : String) (v : Val) (pairRes : Option (Except String Fields))
    (o2 : Fields)
    (ha : Val.wfFieldsB a = true) (hv : Val.wfB v = true)
    (hp : pairRes = none ∨
      ∃ mf, pairRes = some (Except.ok mf) ∧ Val.wfFieldsB mf = true)
    (h : mergeEntryWith opts depth a k0 v pairRes = Except.ok o2) :
    Val.wfFieldsB o2 = true := by
  have hbase : Val.wfFieldsB (base1 a (stripKey k0) v) = true := by
    unfold base1
    split
    · exact setKey_wf a _ _ ha rfl
    · exact ha
  rcases hp with hp | ⟨mf, hp, hmf⟩ <;> subst hp <;>
    simp only [mergeEntryWith] at h <;> repeat' split at h
  all_goals first
    | exact Except.noConfusion h
    | (injection h with h; subst h; assumption)
    | (injection h with h; subst h; exact setKey_wf _ _ _ hbase hv)
    | (injection h with h; subst h;
       exact setKey_wf _ _ _ hbase (by simpa [Val.wfB] using hmf))
    | (injection h with h; subst h; exact delKey_wf _ _ hbase)

mutual
theorem mergeWf (opts : MergeOpts) (hE : opts.enforceTypes = false) :
    (b : Fields) → (a r : Fields) → (depth : Nat) →
    Val.wfFieldsB a = true → (∀ kv ∈ b, Val.wfB kv.2 = true) →
    mergeFields opts depth a b = Except.ok r → Val.wfFieldsB r = true
  | [], a, r, _, ha, _, h => by
    injection h with h; subst h; exact ha
  | (k0, v) :: rest, a, r, depth, ha, hb, h => by
    rw [mergeFields_cons] at h
    cases ho2 : mergeEntryWith opts depth a k0 v
        (mergeObjPair opts depth (xVal a (stripKey k0) v) v) with
    | error e => rw [ho2] at h; exact Except.noConfusion h
    | ok o2 =>
      rw [ho2] at h
      have hvwf : Val.wfB v = true := hb (k0, v) (by simp)
      have hwo2 : Val.wfFieldsB o2 = true := by
        refine mergeEntryWith_wf opts depth a k0 v _ o2 ha hvwf ?_ ho2
        cases hp : mergeObjPair opts depth (xVal a (stripKey k0) v) v with
        | none => exact Or.inl rfl
        | some res =>
          obtain ⟨mf, hr, hw⟩ := mergeWfVal opts hE v (xVal a (stripKey k0) v)
            res depth (xVal_wf a (stripKey k0) v ha) hvwf hp
          exact Or.inr ⟨mf, by rw [hr], hw⟩
      exact mergeWf opts hE rest o2 r depth hwo2
        (fun kv hm => hb kv (by simp [hm])) h

theorem mergeWfVal (opts : MergeOpts) (hE : opts.enforceTypes = false) :
    (v : Val) → (x : Val) → (res : Except String Fields) → (depth : Nat) →
    Val.wfB x = true → Val.wfB v = true →
    mergeObjPair opts depth x v = some res →
    ∃ mf, res = Except.ok mf ∧ Val.wfFieldsB mf = true
  | .obj vf, x, res, depth, hx, hv, hp => by
    cases x <;> (try exact Option.noConfusion hp)
    case obj xf =>
      simp only [mergeObjPair, Option.some.injEq] at hp
      obtain ⟨mf, hmf⟩ := mergeOk opts hE vf xf (depth + 1)
      refine ⟨mf, by rw [← hp, hmf], ?_⟩
      exact mergeWf opts hE vf xf mf (depth + 1)
        (by simpa [Val.wfB] using hx)
        (wfB_of_mem vf (by simpa [Val.wfB] using hv)) hmf
  | .undef, x, _, _, _, _, hp => by
    cases x <;> exact Option.noConfusion hp
  | .null, x, _, _, _, _, hp => by
    cases x <;> exact Option.noConfusion hp
  | .bool _, x, _, _, _, _, hp => by
    cases x <;> exact Option.noConfusion hp
  | .num _, x, _, _, _, _, hp => by
    cases x <;> exact Option.noConfusion hp
  | .str _, x, _, _, _, _, hp => by
    cases x <;> exact Option.noConfusion hp
  | .arr _, x, _, _, _, _, hp => by
    cases x <;> exact Option.noConfusion hp
end

mutual
theorem mergeCovers (opts : MergeOpts) (hOv : opts.overwrite = true)
    (hIK : opts.insertKeys = true) (hIv : opts.insertValues = true)
    (hE : opts.enforceTypes = false) :
    (b : Fields) → (a r : Fields) → (depth : Nat) →
    Val.plainFieldsB b = true → 1 ≤ depth →
    mergeFields opts depth a b = Except.ok r →
    coversB r b = true
  | [], _, _, _, _, _, _ => rfl
  | (k0, v) :: rest, a, r, depth, hb, hd, h => by
    obtain ⟨hk1, hk2, hk3, hk4, hk5⟩ := (plainFieldsB_cons k0 v rest).mp hb
    have hstrip : stripKey k0 = k0 := stripKey_eq_self k0 hk2
    have hCan : ((depth == 1 && opts.insertKeys) ||
        (decide (depth > 1) && opts.insertValues)) = true := by
      rcases Nat.lt_or_ge 1 depth with hgt | hle
      · simp [hIv, hgt]
      · have hde : depth = 1 := le_antisymm hle hd
        simp [hde, hIK]
    have hrestne : ∀ kv ∈ rest, stripKey kv.1 ≠ k0 := by
      intro kv hm
      rw [stripKey_eq_self kv.1 (plainKey_of_mem rest hk5 kv hm).2]
      exact ne_key_of_hasKey_eq_false rest k0 hk3 kv hm
    cases hp : mergeObjPair opts depth (xVal a (stripKey k0) v) v with
    | none =>
      have hentry := mergeEntryWith_none_overwrite opts depth a k0 v hk2 hOv hE hCan
      rw [mergeFields_cons_ok opts depth a k0 v rest _
        (by rw [hp]; exact hentry)] at h
      have hframe := mergeFields_frame opts rest _ r depth k0 h hrestne
      simp only [coversB, Bool.and_eq_true]
      refine ⟨?_, mergeCovers opts hOv hIK hIv hE rest _ r depth hk5 hd h⟩
      rw [hframe.1, hstrip, lookupVal_setKey_self]
      exact coverValB_refl v hk4
    | some res =>
      obtain ⟨xf, vf, hx, hvv, hres⟩ := mergeObjPair_some opts depth _ _ res hp
      obtain ⟨mf, hmf⟩ := mergeOk opts hE vf xf (depth + 1)
      have hresok : res = Except.ok mf := by rw [← hres, hmf]
      subst hresok
      have hentry := mergeEntryWith_pair_ok opts depth a k0 v mf
        (by rw [hvv]; rfl)
      rw [mergeFields_cons_ok opts depth a k0 v rest _
        (by rw [hp]; exact hentry)] at h
      have hframe := mergeFields_frame opts rest _ r depth k0 h hrestne
      simp only [coversB, Bool.and_eq_true]
      refine ⟨?_, mergeCovers opts hOv hIK hIv hE rest _ r depth hk5 hd h⟩
      rw [hframe.1, hstrip, lookupVal_setKey_self]
      exact mergeCoversVal opts hOv hIK hIv hE v
        (xVal a (stripKey k0) v) mf depth hk4 hd hp

theorem mergeCoversVal (opts : MergeOpts) (hOv : opts.overwrite = true)
    (hIK : opts.insertKeys = true) (hIv : opts.insertValues = true)
    (hE : opts.enforceTypes = false) :
    (v : Val) → (x : Val) → (mf : Fields) → (depth : Nat) →
    Val.plainB v = true → 1 ≤ depth →
    mergeObjPair opts depth x v = some (Except.ok mf) →
    coverValB (.obj mf) v = true
  | .obj vf, x, mf, depth, hv, hd, hp => by
    cases x <;> (try exact Option.noConfusion hp)
    case obj xf =>
      simp only [mergeObjPair, Option.some.injEq] at hp
      simp only [coverValB]
      exact mergeCovers opts hOv hIK hIv hE vf xf mf (depth + 1)
        (by simpa [Val.plainB] using hv) (by omega) hp
  | .undef, x, _, _, _, _, hp => by cases x <;> exact Option.noConfusion hp
  | .null, x, _, _, _, _, hp => by cases x <;> exact Option.noConfusion hp
  | .bool _, x, _, _, _, _, hp => by cases x <;> exact Option.noConfusion hp
  | .num _, x, _, _, _, _, hp => by cases x <;> exact Option.noConfusion hp
  | .str _, x, _, _, _, _, hp => by cases x <;> exact Option.noConfusion hp
  | .arr _, x, _, _, _, _, hp => by cases x <;> exact Option.noConfusion hp
end

mutual
theorem mergePres (opts : MergeOpts) (hOv : opts.overwrite = false)
    (hE : opts.enforceTypes = false) :
    (b : Fields) → (a r : Fields) → (depth : Nat) →
    Val.plainFieldsB b = true → Val.wfFieldsB a = true →
    mergeFields opts depth a b = Except.ok r →
    presFieldsB a r = true
  | [], a, r, _, _, ha, h => by
    injection h with h; subst h; exact presFieldsB_refl a ha
  | (k0, v) :: rest, a, r, depth, hb, ha, h => by
    obtain ⟨hk1, hk2, hk3, hk4, hk5⟩ := (plainFieldsB_cons k0 v rest).mp hb
    have hnda := nodupKeysB_of_wfFieldsB a ha
    cases hp : mergeObjPair opts depth (xVal a (stripKey k0) v) v with
    | none =>
      have hvo : ¬(getType v = "Object" ∧ hasKey a (stripKey k0) = false) := by
        rintro ⟨hobj, hnk⟩
        obtain ⟨vf, rfl⟩ := getType_obj_elim v hobj
        have hxe : xVal a (stripKey k0) (.obj vf) = .obj [] := by
          simp [xVal, ensureB, hnk, getType]
        rw [hxe] at hp
        exact Option.noConfusion hp
      obtain hE4 | ⟨hE4, hcond⟩ :=
        mergeEntryWith_none_noOverwrite opts depth a k0 v hk2 hOv hvo
      · rw [mergeFields_cons_ok opts depth a k0 v rest _
          (by rw [hp]; exact hE4)] at h
        exact mergePres opts hOv hE rest a r depth hk5 ha h
      · rw [mergeFields_cons_ok opts depth a k0 v rest _
          (by rw [hp]; exact hE4)] at h
        have ho2wf : Val.wfFieldsB (setKey a (stripKey k0) v) = true :=
          setKey_wf _ _ _ ha (Val.wfB_of_plainB v hk4)
        have hpres1 : presFieldsB a (setKey a (stripKey k0) v) = true := by
          apply presFieldsB_of_agree
          intro kv hm hu
          by_cases hkk : kv.1 = stripKey k0
          · rcases hcond with hnk | hlu
            · have hhk := hasKey_of_mem a kv.1 kv.2 hm
              rw [hkk] at hhk
              rw [hhk] at hnk
              exact Bool.noConfusion hnk
            · have hlk := lookupVal_eq_of_mem a kv.1 kv.2 hnda hm
              rw [hkk, hlu] at hlk
              rw [← hlk] at hu
              exact Bool.noConfusion hu
          · rw [lookupVal_setKey_other a (stripKey k0) kv.1 v
              (fun hc => hkk hc.symm)]
            rw [lookupVal_eq_of_mem a kv.1 kv.2 hnda hm]
            exact presValB_refl kv.2 (wfB_of_mem a ha kv hm)
        exact presFieldsB_trans a _ r hpres1
          (mergePres opts hOv hE rest _ r depth hk5 ho2wf h)
    | some res =>
      obtain ⟨xf, vf, hx, hvv, hres⟩ := mergeObjPair_some opts depth _ _ res hp
      obtain ⟨mf, hmf⟩ := mergeOk opts hE vf xf (depth + 1)
      have hresok : res = Except.ok mf := by rw [← hres, hmf]
      subst hresok
      have hentry := mergeEntryWith_pair_ok opts depth a k0 v mf
        (by rw [hvv]; rfl)
      rw [mergeFields_cons_ok opts depth a k0 v rest _
        (by rw [hp]; exact hentry)] at h
      have hwmf : Val.wfFieldsB mf = true := by
        have hxwf : Val.wfB (xVal a (stripKey k0) v) = true := xVal_wf a _ v ha
        rw [hx] at hxwf
        refine mergeWf opts hE vf xf mf (depth + 1)
          (by simpa [Val.wfB] using hxwf) ?_ hmf
        have : Val.wfB v = true := Val.wfB_of_plainB v hk4
        rw [hvv] at this
        exact wfB_of_mem vf (by simpa [Val.wfB] using this)
      have ho2wf : Val.wfFieldsB (setKey a (stripKey k0) (.obj mf)) = true :=
        setKey_wf _ _ _ ha (by simpa [Val.wfB] using hwmf)
      by_cases hnk : hasKey a (stripKey k0) = true
      · have hxl : lookupVal a (stripKey k0) = .obj xf := by
          have hxv : xVal a (stripKey k0) v = lookupVal a (stripKey k0) := by
            simp [xVal, ensureB, hnk]
          rw [← hxv, hx]
        have hp2 : mergeObjPair opts depth (.obj xf) v =
            some (Except.ok mf) := by
          rw [← hx]
          exact hp
        have hnest : presFieldsB xf mf = true :=
          mergePresVal opts hOv hE v xf mf depth hk4
            (by
              have hxwf : Val.wfB (xVal a (stripKey k0) v) = true :=
                xVal_wf a _ v ha
              rw [hx] at hxwf
              simpa [Val.wfB] using hxwf) hp2
        have hpres1 : presFieldsB a (setKey a (stripKey k0) (.obj mf)) = true := by
          apply presFieldsB_of_agree
          intro kv hm hu
          by_cases hkk : kv.1 = stripKey k0
          · have hlk := lookupVal_eq_of_mem a kv.1 kv.2 hnda hm
            rw [hkk] at hlk ⊢
            rw [hxl] at hlk
            rw [← hlk, lookupVal_setKey_self]
            simpa only [presValB] using hnest
          · rw [lookupVal_setKey_other a (stripKey k0) kv.1 _
              (fun hc => hkk hc.symm)]
            rw [lookupVal_eq_of_mem a kv.1 kv.2 hnda hm]
            exact presValB_refl kv.2 (wfB_of_mem a ha kv hm)
        exact presFieldsB_trans a _ r hpres1
          (mergePres opts hOv hE rest _ r depth hk5 ho2wf h)
      · have hnk' : hasKey a (stripKey k0) = false := by simpa using hnk
        have hpres1 : presFieldsB a (setKey a (stripKey k0) (.obj mf)) = true := by
          apply presFieldsB_of_agree
          intro kv hm hu
          have hkk : kv.1 ≠ stripKey k0 := by
            intro hc
            have hhk := hasKey_of_mem a kv.1 kv.2 hm
            rw [hc] at hhk
            rw [hhk] at hnk'
            exact Bool.noConfusion hnk'
          rw [lookupVal_setKey_other a (stripKey k0) kv.1 _
            (fun hc => hkk hc.symm)]
          rw [lookupVal_eq_of_mem a kv.1 kv.2 hnda hm]
          exact presValB_refl kv.2 (wfB_of_mem a ha kv hm)
        exact presFieldsB_trans a _ r hpres1
          (mergePres opts hOv hE rest _ r depth hk5 ho2wf h)

theorem mergePresVal (opts : MergeOpts) (hOv : opts.overwrite = false)
    (hE : opts.enforceTypes = false) :
    (v : Val) → (xf mf : Fields) → (depth : Nat) →
    Val.plainB v = true → Val.wfFieldsB xf = true →
    mergeObjPair opts depth (.obj xf) v = some (Except.ok mf) →
    presFieldsB xf mf = true
  | .obj vf, xf, mf, depth, hv, hxf, hp => by
    simp only [mergeObjPair, Option.some.injEq] at hp
    exact mergePres opts hOv hE vf xf mf (depth + 1)
      (by simpa [Val.plainB] using hv) hxf hp
  | .undef, _, _, _, _, _, hp => Option.noConfusion hp
  | .null, _, _, _, _, _, hp => Option.noConfusion hp
  | .bool _, _, _, _, _, _, hp => Option.noConfusion hp
  | .num _, _, _, _, _, _, hp => Option.noConfusion hp
  | .str _, _, _, _, _, _, hp => Option.noConfusion hp
  | .arr _, _, _, _, _, _, hp => Option.noConfusion hp
end

theorem mergeEntryWith_none_noinsert (opts : MergeOpts) (depth : Nat)
    (original : Fields) (k0 : String) (v : Val)
    (hK : isDeleteKey k0 = false) (hOv : opts.overwrite = true)
    (hE : opts.enforceTypes = false)
    (hCan : ((depth == 1 && opts.insertKeys) ||
      (decide (depth > 1) && opts.insertValues)) = false)
    (hvo : ¬(getType v = "Object" ∧ hasKey original (stripKey k0) = false)) :
    (mergeEntryWith opts depth original k0 v none =
        Except.ok (setKey original (stripKey k0) v) ∧
      hasKey original (stripKey k0) = true) ∨
    mergeEntryWith opts depth original k0 v none = Except.ok original := by
  simp only [mergeEntryWith, hK, hOv, hE, Bool.false_and, Bool.and_false]
  by_cases hh : hasKey original (stripKey k0) = true
  · have he : ensureB original (stripKey k0) v = false := by
      simp [ensureB, hh]
    exact Or.inl ⟨by simp [hh, he, base1], hh⟩
  · have hh' : hasKey original (stripKey k0) = false := by simpa using hh
    have hv : getType v ≠ "Object" := fun hc => hvo ⟨hc, hh'⟩
    have he : ensureB original (stripKey k0) v = false := by
      simp [ensureB, hh', hv]
    exact Or.inr (by simp [hh', he, base1, hCan])

theorem mergeKeysTop (opts : MergeOpts) (hIK : opts.insertKeys = false)
    (hOv : opts.overwrite = true) (hE : opts.enforceTypes = false) :
    (b : Fields) → (a r : Fields) →
    Val.plainFieldsB b = true →
    mergeFields opts 1 a b = Except.ok r →
    ∀ k', hasKey r k' = true →
      hasKey a k' = true ∨ ∃ v', (k', v') ∈ b ∧ getType v' = "Object"
  | [], a, r, _, h, k', hk => by
    injection h with h; subst h; exact Or.inl hk
  | (k0, v) :: rest, a, r, hb, h, k', hk => by
    obtain ⟨hk1, hk2, hk3, hk4, hk5⟩ := (plainFieldsB_cons k0 v rest).mp hb
    have hstrip : stripKey k0 = k0 := stripKey_eq_self k0 hk2
    have hCan : ((1 == 1 && opts.insertKeys) ||
        (decide (1 > 1) && opts.insertValues)) = false := by
      simp [hIK]
    cases hp : mergeObjPair opts 1 (xVal a (stripKey k0) v) v with
    | none =>
      have hvo : ¬(getType v = "Object" ∧ hasKey a (stripKey k0) = false) := by
        rintro ⟨hobj, hnk⟩
        obtain ⟨vf, rfl⟩ := getType_obj_elim v hobj
        have hxe : xVal a (stripKey k0) (.obj vf) = .obj [] := by
          simp [xVal, ensureB, hnk, getType]
        rw [hxe] at hp
        exact Option.noConfusion hp
      obtain ⟨hE4, hhk⟩ | hE4 :=
        mergeEntryWith_none_noinsert opts 1 a k0 v hk2 hOv hE hCan hvo
      · rw [mergeFields_cons_ok opts 1 a k0 v rest _
          (by rw [hp]; exact hE4)] at h
        rcases mergeKeysTop opts hIK hOv hE rest _ r hk5 h k' hk with hl | ⟨v', hm, ho⟩
        · rw [hasKey_setKey, hstrip] at hl
          rcases (Bool.or_eq_true _ _).mp hl with hl | hl
          · exact Or.inl hl
          · rw [beq_iff_eq] at hl
            subst hl
            exact Or.inl ((hstrip ▸ hhk))
        · exact Or.inr ⟨v', by simp [hm], ho⟩
      · rw [mergeFields_cons_ok opts 1 a k0 v rest _
          (by rw [hp]; exact hE4)] at h
        rcases mergeKeysTop opts hIK hOv hE rest a r hk5 h k' hk with hl | ⟨v', hm, ho⟩
        · exact Or.inl hl
        · exact Or.inr ⟨v', by simp [hm], ho⟩
    | some res =>
      obtain ⟨xf, vf, hx, hvv, hres⟩ := mergeObjPair_some opts 1 _ _ res hp
      obtain ⟨mf, hmf⟩ := mergeOk opts hE vf xf 2
      have hresok : res = Except.ok mf := by rw [← hres, hmf]
      subst hresok
      have hentry := mergeEntryWith_pair_ok opts 1 a k0 v mf (by rw [hvv]; rfl)
      rw [mergeFields_cons_ok opts 1 a k0 v rest _
        (by rw [hp]; exact hentry)] at h
      rcases mergeKeysTop opts hIK hOv hE rest _ r hk5 h k' hk with hl | ⟨v', hm, ho⟩
      · rw [hasKey_setKey, hstrip] at hl
        rcases (Bool.or_eq_true _ _).mp hl with hl | hl
        · exact Or.inl hl
        · rw [beq_iff_eq] at hl
          subst hl
          exact Or.inr ⟨v, by simp, by rw [hvv]; rfl⟩
      · exact Or.inr ⟨v', by simp [hm], ho⟩

/-! ## Claim theorems -/

theorem findSplice_of_none {α : Type} (find : α → Bool) (l : List α)
    (h : ∀ x ∈ l, find x = false) : findSplice find l = (none, l) := by
  induction l with
  | nil => rfl
  | cons x xs ih =>
    simp [findSplice, h x (by simp), ih (fun y hy => h y (by simp [hy]))]

theorem mapDelete_of_absent {α : Type} (s : List (Val × α)) (k : Val)
    (h : ∀ p ∈ s, Val.beq p.1 k = false) : mapDelete s k = s := by
  induction s with
  | nil => rfl
  | cons p rest ih =>
    obtain ⟨k0, v0⟩ := p
    simp [mapDelete, h (k0, v0) (by simp),
      ih (fun q hq => h q (by simp [hq]))]

/-- C5 counterexample: with permission map `{default: 2, u1: 0}` and the
non-GM acting user `u1`, the per-user entry is present with an explicit NONE
(0) level, yet the `permission` getter returns the default level 2 instead of
0 — the getter's `userPerm ? userPerm : default` truthiness test does not
honour a present zero entry, refuting the claim as stated. -/
theorem c5_permission_getter_counterexample :
    lookupVal [("default", Val.num 2), ("u1", Val.num 0)] "u1" = Val.num 0 ∧
    permissionGetter false "u1" [("default", Val.num 2), ("u1", Val.num 0)] =
      Val.num 2 := ⟨rfl, rfl⟩

/-- C5 (amended): for every non-GM acting user and permission map, the
`permission` getter equals the per-user entry whenever that entry is present
and truthy (a nonzero level), and equals the map's `default` entry otherwise —
in particular an explicit NONE (0) per-user entry falls back to the
default. -/
theorem c5_permission_getter_amended (userId : String) (perm : Fields) :
    (truthy (lookupVal perm userId) = true →
      permissionGetter false userId perm = lookupVal perm userId) ∧
    (truthy (lookupVal perm userId) = false →
      permissionGetter false userId perm = lookupVal perm "default") := by
  constructor <;> intro h <;> simp [permissionGetter, h]

/-- Witness for the amended C5 theorem: acting user `u1` with a truthy entry
in `{default: 1, u1: 3}` receives exactly that entry. -/
theorem c5_permission_getter_amended_witness :
    truthy (lookupVal [("default", Val.num 1), ("u1", Val.num 3)] "u1") = true ∧
    permissionGetter false "u1" [("default", Val.num 1), ("u1", Val.num 3)] =
      lookupVal [("default", Val.num 1), ("u1", Val.num 3)] "u1" :=
  ⟨rfl, (c5_permission_getter_amended "u1"
    [("default", Val.num 1), ("u1", Val.num 3)]).1 rfl⟩

/-- C6, evaluated at the failing input: the static `Entity.create` applies
`data.length === 1 ? entities[0] : entities`, and a plain (non-array) data
object has no `length` property, so a single-object create whose response
carries one record resolves to a one-element array — not to the single
Entity the claim (and the method's own documentation) promises. The second
conjunct confirms the array-input half of the claim: an array of length 2
resolves to the entity array. -/
theorem c6_create_return_shape :
    createReturn (.obj [("name", .str "Probe")])
        [.obj [("_id", .str "e1"), ("name", .str "Probe")]] =
      .arr [.obj [("_id", .str "e1"), ("name", .str "Probe")]] ∧
    createReturn (.arr [.obj [("name", .str "A")], .obj [("name", .str "B")]])
        [.obj [("_id", .str "a")], .obj [("_id", .str "b")]] =
      .arr [.obj [("_id", .str "a")], .obj [("_id", .str "b")]] := ⟨rfl, rfl⟩

/-- C8: for a parent whose configured embedded raw array under `field` is
`prior`, the embedded-delete response handler succeeds, replaces the parent's
array with exactly the prior elements whose `_id` is not in the response id
set (in order), runs the per-child delete hook on exactly the removed
children, and returns the removed children. -/
theorem c8_handle_delete_embedded (cfg : EntityConfig) (parentData : Fields)
    (etype field : String) (result : List Val) (prior : List Val)
    (hf : assocGet cfg.embeddedEntities etype = some field)
    (hp : lookupVal parentData field = .arr prior) :
    handleDeleteEmbeddedEntity cfg parentData etype result =
      Except.ok
        ⟨setKey parentData field
            (.arr (prior.filter (fun doc => !valIn (propOf doc "_id") result))),
          prior.filter (fun doc => valIn (propOf doc "_id") result),
          prior.filter (fun doc => valIn (propOf doc "_id") result)⟩ := by
  simp only [handleDeleteEmbeddedEntity, hf, hp, partitionJS, Bool.not_not]

/-- Witness for C8: deleting ids i1 and i3 from a parent with three embedded
items removes exactly those two (hooked and returned in order) and keeps
i2. -/
theorem c8_handle_delete_embedded_witness :
    assocGet cfgActor.embeddedEntities "OwnedItem" = some "items" ∧
    lookupVal [("_id", Val.str "a1"),
        ("items", Val.arr [Val.obj [("_id", Val.str "i1")],
          Val.obj [("_id", Val.str "i2")], Val.obj [("_id", Val.str "i3")]])]
      "items" = Val.arr [Val.obj [("_id", Val.str "i1")],
        Val.obj [("_id", Val.str "i2")], Val.obj [("_id", Val.str "i3")]] ∧
    handleDeleteEmbeddedEntity cfgActor
        [("_id", Val.str "a1"),
          ("items", Val.arr [Val.obj [("_id", Val.str "i1")],
            Val.obj [("_id", Val.str "i2")], Val.obj [("_id", Val.str "i3")]])]
        "OwnedItem" [Val.str "i1", Val.str "i3"] =
      Except.ok
        ⟨[("_id", Val.str "a1"),
            ("items", Val.arr [Val.obj [("_id", Val.str "i2")]])],
          [Val.obj [("_id", Val.str "i1")], Val.obj [("_id", Val.str "i3")]],
          [Val.obj [("_id", Val.str "i1")], Val.obj [("_id", Val.str "i3")]]⟩ := by
  refine ⟨rfl, rfl, ?_⟩
  exact c8_handle_delete_embedded cfgActor
    [("_id", Val.str "a1"),
      ("items", Val.arr [Val.obj [("_id", Val.str "i1")],
        Val.obj [("_id", Val.str "i2")], Val.obj [("_id", Val.str "i3")]])]
    "OwnedItem" "items" [Val.str "i1", Val.str "i3"]
    [Val.obj [("_id", Val.str "i1")], Val.obj [("_id", Val.str "i2")],
      Val.obj [("_id", Val.str "i3")]] rfl rfl

/-- C10: `EntityCollection.remove` with an id that matches no raw source
record's `_id` and no keyed-store key is a silent no-op — the embedded
operation is a total function (nothing is thrown) and both representations
are returned exactly unchanged. -/
theorem c10_remove_absent_id_noop (c : CollectionState) (id : Val)
    (hsrc : ∀ e ∈ c.source, scalarEq (lookupVal e "_id") id = false)
    (hstore : ∀ p ∈ c.store, Val.beq p.1 id = false) :
    collectionRemove c id = c := by
  obtain ⟨store, source⟩ := c
  simp only [collectionRemove]
  rw [findSplice_of_none _ _ hsrc, mapDelete_of_absent _ _ hstore]

/-- Witness for C10: removing the unknown id "zz" from a one-entity
collection changes nothing. -/
theorem c10_remove_absent_id_noop_witness :
    (∀ e ∈ ([[("_id", Val.str "a1"), ("items", Val.arr [])]] : List Fields),
      scalarEq (lookupVal e "_id") (Val.str "zz") = false) ∧
    (∀ p ∈ [((Val.str "a1" : Val),
        mkEntity cfgActor [("_id", Val.str "a1"), ("items", Val.arr [])])],
      Val.beq p.1 (Val.str "zz") = false) ∧
    collectionRemove
        ⟨[(Val.str "a1",
            mkEntity cfgActor [("_id", Val.str "a1"), ("items", Val.arr [])])],
          [[("_id", Val.str "a1"), ("items", Val.arr [])]]⟩ (Val.str "zz") =
      ⟨[(Val.str "a1",
          mkEntity cfgActor [("_id", Val.str "a1"), ("items", Val.arr [])])],
        [[("_id", Val.str "a1"), ("items", Val.arr [])]]⟩ := by
  refine ⟨by decide, by decide, ?_⟩
  exact c10_remove_absent_id_noop _ _ (by decide) (by decide)

theorem hasKey_append (l1 l2 : Fields) (k : String) :
    hasKey (l1 ++ l2) k = (hasKey l1 k || hasKey l2 k) := by
  induction l1 with
  | nil => simp [hasKey]
  | cons p rest ih =>
    obtain ⟨k0, v0⟩ := p
    simp [hasKey, ih, Bool.or_assoc]

mutual
theorem jsDifference_self : (v : Val) → Val.wfB v = true →
    (jsDifference v v).1 = false
  | .undef, _ => rfl
  | .null, _ => rfl
  | .bool b, _ => by simp [jsDifference, getType, scalarEq]
  | .num n, _ => by simp [jsDifference, getType, scalarEq]
  | .str s, _ => by simp [jsDifference, getType, scalarEq]
  | .arr xs, _ => by
    simp [jsDifference, getType, arrEquals, Val.beqL_refl xs]
  | .obj fs, h => by
    have hd : diffObject fs fs = [] :=
      diffObject_agree fs fs (fun kv hm =>
        ⟨lookupVal_eq_of_mem fs kv.1 kv.2
          (nodupKeysB_of_wfFieldsB fs (by simpa [Val.wfB] using h)) hm,
         wfB_of_mem fs (by simpa [Val.wfB] using h) kv hm⟩)
    simp [jsDifference, getType, hd, isObjectEmpty]

theorem diffObject_agree : (other : Fields) → (f0 : Fields) →
    (∀ kv ∈ other, lookupVal f0 kv.1 = kv.2 ∧ Val.wfB kv.2 = true) →
    diffObject f0 other = []
  | [], _, _ => rfl
  | (k, v) :: rest, f0, hag => by
    obtain ⟨hlk, hwf⟩ := hag (k, v) (by simp)
    have hflag : (jsDifference (lookupVal f0 k) v).1 = false := by
      rw [hlk]
      exact jsDifference_self v hwf
    simp only [diffObject, hflag, Bool.false_eq_true, if_false, List.nil_append]
    exact diffObject_agree rest f0 (fun kv hm => hag kv (by simp [hm]))
end

theorem hasKey_diffObject_eq_false (o2 : Fields) (o1 : Fields) (k : String)
    (hcond : ∀ v', (k, v') ∈ o2 →
      (jsDifference (lookupVal o1 k) v').1 = false) :
    hasKey (diffObject o1 o2) k = false := by
  induction o2 with
  | nil => rfl
  | cons p rest ih =>
    obtain ⟨k0, v0⟩ := p
    have hrest := ih (fun v' hm => hcond v' (by simp [hm]))
    simp only [diffObject]
    rw [hasKey_append, hrest, Bool.or_false]
    by_cases hk : k0 = k
    · subst hk
      rw [hcond v0 (by simp)]
      rfl
    · split
      · simp [hasKey, hk]
      · rfl

/-- C4: `diffObject(X, X)` is empty for any well-formed plain-data object `X`
(keys unique at every level, as JS objects guarantee); and when the same key
holds arrays of element-wise-equal content in the two compared objects, the
diff has no entry for that key — arrays are compared element-wise, not by
reference. -/
theorem c4_diffObject_self_and_arrays (X o1 o2 : Fields) (k : String)
    (xs ys : List Val)
    (hX : Val.wfFieldsB X = true) (h2 : nodupKeysB o2 = true)
    (h1 : lookupVal o1 k = .arr xs) (hk2 : lookupVal o2 k = .arr ys)
    (heq : arrEquals xs ys = true) :
    diffObject X X = [] ∧ hasKey (diffObject o1 o2) k = false := by
  constructor
  · exact diffObject_agree X X (fun kv hm =>
      ⟨lookupVal_eq_of_mem X kv.1 kv.2 (nodupKeysB_of_wfFieldsB X hX) hm,
       wfB_of_mem X hX kv hm⟩)
  · apply hasKey_diffObject_eq_false
    intro v' hm
    have hv' := lookupVal_eq_of_mem o2 k v' h2 hm
    rw [hk2] at hv'
    rw [← hv', h1]
    simp [jsDifference, getType, heq]

/-- Witness for C4 at X = {a: 1, b: [1, {c: 2}]} and two objects agreeing on
an array-valued key k whose arrays have equal content but are distinct
literals. -/
theorem c4_diffObject_self_and_arrays_witness :
    Val.wfFieldsB [("a", Val.num 1),
      ("b", Val.arr [Val.num 1, Val.obj [("c", Val.num 2)]])] = true ∧
    nodupKeysB [("k", Val.arr [Val.num 1, Val.num 2]), ("z", Val.num 9)] = true ∧
    lookupVal [("k", Val.arr [Val.num 1, Val.num 2])] "k" =
      Val.arr [Val.num 1, Val.num 2] ∧
    lookupVal [("k", Val.arr [Val.num 1, Val.num 2]), ("z", Val.num 9)] "k" =
      Val.arr [Val.num 1, Val.num 2] ∧
    arrEquals [Val.num 1, Val.num 2] [Val.num 1, Val.num 2] = true ∧
    (diffObject [("a", Val.num 1),
        ("b", Val.arr [Val.num 1, Val.obj [("c", Val.num 2)]])]
      [("a", Val.num 1),
        ("b", Val.arr [Val.num 1, Val.obj [("c", Val.num 2)]])] = [] ∧
     hasKey (diffObject [("k", Val.arr [Val.num 1, Val.num 2])]
       [("k", Val.arr [Val.num 1, Val.num 2]), ("z", Val.num 9)]) "k" = false) :=
  ⟨rfl, rfl, rfl, rfl, rfl,
    c4_diffObject_self_and_arrays _ _ _ "k" _ _ rfl rfl rfl rfl rfl⟩

theorem mapSet_fresh {α : Type} (s : List (Val × α)) (k : Val) (v : α)
    (h : ∀ p ∈ s, Val.beq p.1 k = false) : mapSet s k v = s ++ [(k, v)] := by
  induction s with
  | nil => rfl
  | cons p rest ih =>
    obtain ⟨k0, v0⟩ := p
    simp [mapSet, h (k0, v0) (by simp), ih (fun q hq => h q (by simp [hq]))]

theorem mapGet_append_left {α : Type} (s t : List (Val × α)) (k : Val) (v : α)
    (h : mapGet s k = some v) : mapGet (s ++ t) k = some v := by
  induction s with
  | nil => simp [mapGet] at h
  | cons p rest ih =>
    obtain ⟨k0, v0⟩ := p
    simp only [mapGet] at h
    simp only [List.cons_append, mapGet]
    by_cases hb : Val.beq k0 k = true
    · simp only [hb, if_true] at h ⊢
      exact h
    · simp only [hb, if_false, Bool.false_eq_true] at h ⊢
      exact ih h

theorem mapGet_append_fresh {α : Type} (s : List (Val × α)) (k : Val) (v : α)
    (h : ∀ p ∈ s, Val.beq p.1 k = false) :
    mapGet (s ++ [(k, v)]) k = some v := by
  induction s with
  | nil => simp [mapGet, Val.beq_refl k]
  | cons p rest ih =>
    obtain ⟨k0, v0⟩ := p
    simp only [List.cons_append, mapGet, h (k0, v0) (by simp)]
    simp only [Bool.false_eq_true, if_false]
    exact ih (fun q hq => h q (by simp [hq]))

theorem initStore_fold (cfg : EntityConfig) :
    (records : List Fields) → (s : List (Val × EntityM)) →
    (∀ p ∈ s, ∀ d ∈ records, Val.beq p.1 (lookupVal d "_id") = false) →
    (records.map (fun d => lookupVal d "_id")).Pairwise
      (fun i j => Val.beq i j = false) →
    (records.foldl (fun store d =>
        mapSet store (lookupVal d "_id") (mkEntity cfg d)) s).length =
      s.length + records.length ∧
    (∀ d ∈ records,
      mapGet (records.foldl (fun store d =>
          mapSet store (lookupVal d "_id") (mkEntity cfg d)) s)
        (lookupVal d "_id") = some (mkEntity cfg d)) ∧
    (∀ k v, mapGet s k = some v →
      (∀ d ∈ records, Val.beq k (lookupVal d "_id") = false) →
      mapGet (records.foldl (fun store d =>
          mapSet store (lookupVal d "_id") (mkEntity cfg d)) s) k = some v)
  | [], s, _, _ => by
    refine ⟨by simp, by simp, ?_⟩
    intro k v h _
    simpa using h
  | d :: rest, s, hfresh, hpw => by
    have hpw2 : List.Pairwise (fun i j => Val.beq i j = false)
        ((lookupVal d "_id") :: rest.map (fun d2 => lookupVal d2 "_id")) := by
      simpa using hpw
    have hpwc := List.pairwise_cons.mp hpw2
    have hset : mapSet s (lookupVal d "_id") (mkEntity cfg d) =
        s ++ [(lookupVal d "_id", mkEntity cfg d)] :=
      mapSet_fresh s _ _ (fun p hp => hfresh p hp d (by simp))
    have hfresh2 : ∀ p ∈ s ++ [(lookupVal d "_id", mkEntity cfg d)],
        ∀ d2 ∈ rest, Val.beq p.1 (lookupVal d2 "_id") = false := by
      intro p hp d2 hd2
      rcases List.mem_append.mp hp with hp | hp
      · exact hfresh p hp d2 (by simp [hd2])
      · simp only [List.mem_singleton] at hp
        subst hp
        exact hpwc.1 _ (List.mem_map_of_mem _ hd2)
    obtain ⟨ihlen, ihget, ihpres⟩ := initStore_fold cfg rest
      (s ++ [(lookupVal d "_id", mkEntity cfg d)]) hfresh2 hpwc.2
    refine ⟨?_, ?_, ?_⟩
    · simp only [List.foldl_cons, hset]
      rw [ihlen]
      have hlen1 : (s ++ [(lookupVal d "_id", mkEntity cfg d)]).length =
          s.length + 1 := by simp
      rw [hlen1, List.length_cons]
      omega
    · intro d2 hd2
      rcases List.mem_cons.mp hd2 with hq | hq
      · subst hq
        simp only [List.foldl_cons, hset]
        apply ihpres
        · exact mapGet_append_fresh s _ _ (fun p hp => hfresh p hp d2 (by simp))
        · intro d3 hd3
          exact hpwc.1 _ (List.mem_map_of_mem _ hd3)
      · simp only [List.foldl_cons, hset]
        exact ihget d2 hq
    · intro k v hkv hne
      simp only [List.foldl_cons, hset]
      apply ihpres
      · exact mapGet_append_left s _ k v hkv
      · intro d3 hd3
        exact hne d3 (by simp [hd3])

/-- C7: constructing the collection store from N raw records with pairwise
distinct ids yields exactly N entries, and `get` on every record's id
returns the Entity built from that record. The construction `mkEntity` is a
total function — the `initialize` pass catches and swallows any preparation
error — so this holds whether or not any record is malformed. -/
theorem c7_collection_bootstrap (cfg : EntityConfig) (records : List Fields)
    (hids : (records.map (fun d => lookupVal d "_id")).Pairwise
      (fun i j => Val.beq i j = false)) :
    (initCollectionStore cfg records).length = records.length ∧
    ∀ d ∈ records,
      mapGet (initCollectionStore cfg records) (lookupVal d "_id") =
        some (mkEntity cfg d) := by
  have h := initStore_fold cfg records [] (by simp) hids
  exact ⟨by simpa using h.1, h.2.1⟩

/-- Witness for C7: three records, the middle one malformed (its `items` raw
array is missing, so `prepareEmbeddedEntities` throws and the error is
swallowed — its `initOk` flag is false), still bootstrap into a
three-entry store with every id retrievable. -/
theorem c7_collection_bootstrap_witness :
    (([[("_id", Val.str "a1"), ("items", Val.arr [])],
       [("_id", Val.str "a2")],
       [("_id", Val.str "a3"), ("items", Val.arr [])]] : List Fields).map
        (fun d => lookupVal d "_id")).Pairwise
      (fun i j => Val.beq i j = false) ∧
    (mkEntity cfgActor [("_id", Val.str "a2")]).initOk = false ∧
    ((initCollectionStore cfgActor
        [[("_id", Val.str "a1"), ("items", Val.arr [])],
         [("_id", Val.str "a2")],
         [("_id", Val.str "a3"), ("items", Val.arr [])]]).length = 3 ∧
     ∀ d ∈ ([[("_id", Val.str "a1"), ("items", Val.arr [])],
         [("_id", Val.str "a2")],
         [("_id", Val.str "a3"), ("items", Val.arr [])]] : List Fields),
       mapGet (initCollectionStore cfgActor
           [[("_id", Val.str "a1"), ("items", Val.arr [])],
            [("_id", Val.str "a2")],
            [("_id", Val.str "a3"), ("items", Val.arr [])]])
         (lookupVal d "_id") = some (mkEntity cfgActor d)) := by
  refine ⟨?_, rfl, c7_collection_bootstrap cfgActor _ ?_⟩ <;>
    · simp only [List.map_cons, List.map_nil, List.pairwise_cons]
      refine ⟨?_, ?_, ?_⟩ <;> first
        | (intro x hx; fin_cases hx <;> rfl)
        | simp

theorem stageUpdateItem_drops (store : List (String × Fields)) (d : Fields)
    (s : String) (eData ex : Fields)
    (hid : lookupVal d "_id" = Val.str s) (hs : s ≠ "")
    (hst : assocGet store s = some eData)
    (hex : expandObjectD d 0 = Except.ok ex)
    (hdiff : diffObject eData ex = []) :
    stageUpdateItem store true d = Except.ok none := by
  simp only [stageUpdateItem, hid, hst, hex, hdiff, truthy]
  simp only [isObjectEmpty, if_pos rfl]
  simp [hs]

theorem stageAll_all_none (store : List (String × Fields)) (data : List Fields)
    (h : ∀ d ∈ data, stageUpdateItem store true d = Except.ok none) :
    stageAll store true [] data = Except.ok [] := by
  induction data with
  | nil => rfl
  | cons d rest ih =>
    simp only [stageAll, h d (by simp)]
    exact ih (fun d2 h2 => h d2 (by simp [h2]))

/-- C1: when every item of the update batch has a truthy `_id` resolving to a
live entity and its expanded payload's diff against that entity's current
data is empty, every item is dropped from the batch, the static update makes
no socket dispatch, and the call resolves with the empty array. -/
theorem c1_static_update_all_diffs_empty (store : List (String × Fields))
    (data : List Fields)
    (h : ∀ d ∈ data, ∃ s eData ex,
      lookupVal d "_id" = Val.str s ∧ s ≠ "" ∧
      assocGet store s = some eData ∧
      expandObjectD d 0 = Except.ok ex ∧
      diffObject eData ex = []) :
    staticUpdate store true data = Except.ok ⟨false, []⟩ := by
  have hall : ∀ d ∈ data, stageUpdateItem store true d = Except.ok none := by
    intro d hd
    obtain ⟨s, eData, ex, hid, hs, hst, hex, hdiff⟩ := h d hd
    exact stageUpdateItem_drops store d s eData ex hid hs hst hex hdiff
  simp [staticUpdate, stageAll_all_none store data hall, Bind.bind, Except.bind,
    List.isEmpty]

/-- Witness for C1: updating entity a1 (current name "same-name") with
`{_id: "a1", name: "same-name"}` produces an empty diff, no dispatch, and an
empty result. -/
theorem c1_static_update_all_diffs_empty_witness :
    (∀ d ∈ ([[("_id", Val.str "a1"), ("name", Val.str "same-name")]] :
        List Fields), ∃ s eData ex,
      lookupVal d "_id" = Val.str s ∧ s ≠ "" ∧
      assocGet [("a1", [("_id", Val.str "a1"), ("name", Val.str "same-name")])]
        s = some eData ∧
      expandObjectD d 0 = Except.ok ex ∧
      diffObject eData ex = []) ∧
    staticUpdate
        [("a1", [("_id", Val.str "a1"), ("name", Val.str "same-name")])] true
        [[("_id", Val.str "a1"), ("name", Val.str "same-name")]] =
      Except.ok ⟨false, []⟩ := by
  have hh : ∀ d ∈ ([[("_id", Val.str "a1"), ("name", Val.str "same-name")]] :
      List Fields), ∃ s eData ex,
      lookupVal d "_id" = Val.str s ∧ s ≠ "" ∧
      assocGet [("a1", [("_id", Val.str "a1"), ("name", Val.str "same-name")])]
        s = some eData ∧
      expandObjectD d 0 = Except.ok ex ∧
      diffObject eData ex = [] := by
    intro d hd
    rw [List.mem_singleton] at hd
    subst hd
    exact ⟨"a1", [("_id", Val.str "a1"), ("name", Val.str "same-name")],
      [("_id", Val.str "a1"), ("name", Val.str "same-name")],
      rfl, by decide, rfl, rfl, rfl⟩
  exact ⟨hh, c1_static_update_all_diffs_empty _ _ hh⟩

theorem coverValB_obj_elim (rv : Val) (bf : Fields)
    (h : coverValB rv (Val.obj bf) = true) :
    ∃ rf, rv = Val.obj rf ∧ coversB rf bf = true := by
  cases rv <;> simp only [coverValB] at h
  case obj rf => exact ⟨rf, rfl, h⟩
  all_goals exact Bool.noConfusion h

/-- C2: when the incoming update record carries a permission map and the live
entity data has one, `Entity._handleUpdate` first deep-merges the record into
the data (incoming values winning, untouched keys of the original preserved)
and then re-assigns `data.permission` in full: the final permission map is
exactly the incoming one, every other key agrees with the plain deep merge,
the merge covers every incoming field recursively, and keys absent from the
record keep the entity's original value. -/
theorem c2_permission_full_replacement (a b : Fields)
    (ha : Val.plainFieldsB a = true) (hb : Val.plainFieldsB b = true)
    (pA pB : Fields)
    (_hpa : lookupVal a "permission" = Val.obj pA)
    (hpb : lookupVal b "permission" = Val.obj pB) :
    ∃ merged final,
      mergeObject a b dfltOpts = Except.ok merged ∧
      handleUpdateRecord a b = Except.ok final ∧
      lookupVal final "permission" = Val.obj pB ∧
      (∀ k, k ≠ "permission" → lookupVal final k = lookupVal merged k) ∧
      coversB merged b = true ∧
      (∀ k, hasKey b k = false → lookupVal merged k = lookupVal a k) := by
  obtain ⟨merged, hmf⟩ := mergeOk dfltOpts rfl b a 1
  have hmo : mergeObject a b dfltOpts = Except.ok merged := by
    rw [mergeObject_plain_eq a b ha hb dfltOpts]; exact hmf
  have hcov : coversB merged b = true :=
    mergeCovers dfltOpts rfl rfl rfl rfl b a merged 1 hb (le_refl 1) hmf
  have hkb : hasKey b "permission" = true :=
    hasKey_of_lookupVal_ne_undef b "permission"
      (by rw [hpb]; exact fun hc => Val.noConfusion hc)
  have hmem : ("permission", Val.obj pB) ∈ b := by
    have hmm := mem_of_hasKey b "permission" hkb
    rwa [hpb] at hmm
  have hcv := coversB_mem merged b hcov ("permission", Val.obj pB) hmem
  obtain ⟨rf, hrf, _⟩ :=
    coverValB_obj_elim (lookupVal merged "permission") pB hcv
  have hcond : (truthy (lookupVal b "permission") &&
      truthy (lookupVal merged "permission")) = true := by
    rw [hpb, hrf]; rfl
  refine ⟨merged, setKey merged "permission" (Val.obj pB), hmo, ?_, ?_, ?_,
    hcov, ?_⟩
  · rw [handleUpdateRecord]
    rw [hmo]
    simp only [Except.bind, Bind.bind, hpb, hrf]
    rfl
  · exact lookupVal_setKey_self merged "permission" (Val.obj pB)
  · intro k hk
    exact lookupVal_setKey_other merged "permission" k (Val.obj pB)
      (fun hc => hk hc.symm)
  · intro k hkb2
    have hne : ∀ kv ∈ b, stripKey kv.1 ≠ k := by
      intro kv hm
      rw [stripKey_eq_self kv.1 (plainKey_of_mem b hb kv hm).2]
      exact ne_key_of_hasKey_eq_false b k hkb2 kv hm
    exact (mergeFields_frame dfltOpts b a merged 1 k hmf hne).1

/-- Witness for C2: the old permission map has keys `default` and `u1`; the
incoming one has only `default`; after the apply step the permission map is
exactly the incoming one (key `u1` is gone), while `name` took the merged
value. -/
theorem c2_permission_full_replacement_witness :
    (Val.plainFieldsB [("name", Val.str "old"),
        ("permission", Val.obj [("default", Val.num 0), ("u1", Val.num 3)])] =
      true ∧
    Val.plainFieldsB [("name", Val.str "new"),
        ("permission", Val.obj [("default", Val.num 1)])] = true ∧
    lookupVal [("name", Val.str "old"),
        ("permission", Val.obj [("default", Val.num 0), ("u1", Val.num 3)])]
      "permission" = Val.obj [("default", Val.num 0), ("u1", Val.num 3)] ∧
    lookupVal [("name", Val.str "new"),
        ("permission", Val.obj [("default", Val.num 1)])]
      "permission" = Val.obj [("default", Val.num 1)]) ∧
    (∃ merged final,
      mergeObject [("name", Val.str "old"),
          ("permission", Val.obj [("default", Val.num 0), ("u1", Val.num 3)])]
        [("name", Val.str "new"),
          ("permission", Val.obj [("default", Val.num 1)])] dfltOpts =
        Except.ok merged ∧
      handleUpdateRecord [("name", Val.str "old"),
          ("permission", Val.obj [("default", Val.num 0), ("u1", Val.num 3)])]
        [("name", Val.str "new"),
          ("permission", Val.obj [("default", Val.num 1)])] =
        Except.ok final ∧
      lookupVal final "permission" = Val.obj [("default", Val.num 1)] ∧
      (∀ k, k ≠ "permission" → lookupVal final k = lookupVal merged k) ∧
      coversB merged [("name", Val.str "new"),
          ("permission", Val.obj [("default", Val.num 1)])] = true ∧
      (∀ k, hasKey [("name", Val.str "new"),
          ("permission", Val.obj [("default", Val.num 1)])] k = false →
        lookupVal merged k =
          lookupVal [("name", Val.str "old"),
            ("permission", Val.obj [("default", Val.num 0),
              ("u1", Val.num 3)])] k)) :=
  ⟨⟨rfl, rfl, rfl, rfl⟩,
    c2_permission_full_replacement
      [("name", Val.str "old"),
        ("permission", Val.obj [("default", Val.num 0), ("u1", Val.num 3)])]
      [("name", Val.str "new"),
        ("permission", Val.obj [("default", Val.num 1)])]
      rfl rfl
      [("default", Val.num 0), ("u1", Val.num 3)]
      [("default", Val.num 1)]
      rfl rfl⟩

/-- C3: for plain objects A and B, the merge with the default options
(overwrite, insertKeys, insertValues all true) succeeds and covers B — every
key of B is present with B's value, recursively for nested objects — while
every key absent from B is untouched; and with overwrite:false the merge
succeeds and every non-undefined original value of A survives, recursively. -/
theorem c3_mergeObject_covers_and_preserves (a b : Fields)
    (ha : Val.plainFieldsB a = true) (hb : Val.plainFieldsB b = true) :
    (∃ r, mergeObject a b dfltOpts = Except.ok r ∧
      coversB r b = true ∧
      (∀ k, hasKey b k = false →
        lookupVal r k = lookupVal a k ∧ hasKey r k = hasKey a k)) ∧
    (∃ r2, mergeObject a b noOverwriteOpts = Except.ok r2 ∧
      presFieldsB a r2 = true) := by
  constructor
  · obtain ⟨r, hmf⟩ := mergeOk dfltOpts rfl b a 1
    refine ⟨r, by rw [mergeObject_plain_eq a b ha hb dfltOpts]; exact hmf,
      mergeCovers dfltOpts rfl rfl rfl rfl b a r 1 hb (le_refl 1) hmf, ?_⟩
    intro k hk
    have hne : ∀ kv ∈ b, stripKey kv.1 ≠ k := by
      intro kv hm
      rw [stripKey_eq_self kv.1 (plainKey_of_mem b hb kv hm).2]
      exact ne_key_of_hasKey_eq_false b k hk kv hm
    exact mergeFields_frame dfltOpts b a r 1 k hmf hne
  · obtain ⟨r2, hmf2⟩ := mergeOk noOverwriteOpts rfl b a 1
    exact ⟨r2,
      by rw [mergeObject_plain_eq a b ha hb noOverwriteOpts]; exact hmf2,
      mergePres noOverwriteOpts rfl rfl b a r2 1 hb
        (Val.wfFieldsB_of_plainFieldsB a ha) hmf2⟩

/-- Witness for C3: A has a scalar, a nested object and no key `new`; B
overwrites the scalar, grows the nested object and adds `new`. -/
theorem c3_mergeObject_covers_and_preserves_witness :
    (Val.plainFieldsB [("x", Val.num 1), ("o", Val.obj [("p", Val.num 2)])] =
      true ∧
    Val.plainFieldsB [("x", Val.num 9), ("o", Val.obj [("q", Val.num 3)]),
        ("new", Val.str "n")] = true) ∧
    ((∃ r, mergeObject [("x", Val.num 1), ("o", Val.obj [("p", Val.num 2)])]
        [("x", Val.num 9), ("o", Val.obj [("q", Val.num 3)]),
          ("new", Val.str "n")] dfltOpts = Except.ok r ∧
      coversB r [("x", Val.num 9), ("o", Val.obj [("q", Val.num 3)]),
          ("new", Val.str "n")] = true ∧
      (∀ k, hasKey [("x", Val.num 9), ("o", Val.obj [("q", Val.num 3)]),
          ("new", Val.str "n")] k = false →
        lookupVal r k =
          lookupVal [("x", Val.num 1), ("o", Val.obj [("p", Val.num 2)])] k ∧
        hasKey r k =
          hasKey [("x", Val.num 1), ("o", Val.obj [("p", Val.num 2)])] k)) ∧
    (∃ r2, mergeObject [("x", Val.num 1), ("o", Val.obj [("p", Val.num 2)])]
        [("x", Val.num 9), ("o", Val.obj [("q", Val.num 3)]),
          ("new", Val.str "n")] noOverwriteOpts = Except.ok r2 ∧
      presFieldsB [("x", Val.num 1), ("o", Val.obj [("p", Val.num 2)])] r2 =
        true)) :=
  ⟨⟨rfl, rfl⟩,
    c3_mergeObject_covers_and_preserves
      [("x", Val.num 1), ("o", Val.obj [("p", Val.num 2)])]
      [("x", Val.num 9), ("o", Val.obj [("q", Val.num 3)]),
        ("new", Val.str "n")]
      rfl rfl⟩

/-- C9: the claimed top-level key-subset property of `insertKeys:false` is
falsified: the ensure-inner-objects block (`if (!has && tv === "Object") x =
original[k] = {}`) runs before the `canInsert` check, so an incoming
object-valued key absent from the original is still created at depth 1 and
then populated by the recursive merge. -/
theorem c9_insert_keys_counterexample :
    mergeObject [("a", Val.num 1)] [("b", Val.obj [("c", Val.num 2)])]
        noInsertKeysOpts =
      Except.ok [("a", Val.num 1), ("b", Val.obj [("c", Val.num 2)])] ∧
    hasKey [("a", Val.num 1)] "b" = false ∧
    noInsertKeysOpts.insertKeys = false :=
  ⟨rfl, rfl, rfl⟩

/-- C9 (amended): with `insertKeys:false` on plain objects, every top-level
key of the merge result is either a key of the original or an object-valued
key of the incoming object — scalar-valued keys absent from the original are
never inserted at depth 1. -/
theorem c9_insert_keys_amended (a b r : Fields)
    (ha : Val.plainFieldsB a = true) (hb : Val.plainFieldsB b = true)
    (h : mergeObject a b noInsertKeysOpts = Except.ok r) :
    ∀ k, hasKey r k = true →
      hasKey a k = true ∨ ∃ v, (k, v) ∈ b ∧ getType v = "Object" := by
  rw [mergeObject_plain_eq a b ha hb noInsertKeysOpts] at h
  exact mergeKeysTop noInsertKeysOpts rfl rfl rfl b a r hb h

/-- Witness for the amended C9: merging `{x:5, o:{c:2}}` into `{a:1}` with
insertKeys:false drops the scalar key `x` but creates the object key `o`. -/
theorem c9_insert_keys_amended_witness :
    (Val.plainFieldsB [("a", Val.num 1)] = true ∧
    Val.plainFieldsB [("x", Val.num 5), ("o", Val.obj [("c", Val.num 2)])] =
      true ∧
    mergeObject [("a", Val.num 1)]
        [("x", Val.num 5), ("o", Val.obj [("c", Val.num 2)])]
        noInsertKeysOpts =
      Except.ok [("a", Val.num 1), ("o", Val.obj [("c", Val.num 2)])]) ∧
    (∀ k, hasKey [("a", Val.num 1), ("o", Val.obj [("c", Val.num 2)])] k =
        true →
      hasKey [("a", Val.num 1)] k = true ∨
      ∃ v, (k, v) ∈ ([("x", Val.num 5), ("o", Val.obj [("c", Val.num 2)])] :
        Fields) ∧ getType v = "Object") :=
  ⟨⟨rfl, rfl, rfl⟩,
    c9_insert_keys_amended [("a", Val.num 1)]
      [("x", Val.num 5), ("o", Val.obj [("c", Val.num 2)])]
      [("a", Val.num 1), ("o", Val.obj [("c", Val.num 2)])]
      rfl rfl rfl⟩

end Streamdeck
